import Mathlib

/-!
Verification of the numeric secondary index of `src/src/filter/numeric_index.hpp`.

The development shallowly embeds the C++ source:

* the sortable-key codec (`float_to_sortable`, `sortable_to_float`,
  `int_to_sortable`, `sortable_to_int`) is embedded on 32-bit patterns
  represented as `Nat` (for floats) and on `Int` values in the `int32`
  range (for ints); the XOR masks of the source are written in their
  arithmetic form, which is recorded next to each definition;
* `Bucket` with its `add`, `remove`, `serialize`, `deserialize`;
  the roaring summary bitmap is modelled as a `Finset Nat` (a roaring
  bitmap is semantically a set of 32-bit ids) and its serialized form
  as one little-endian 32-bit word per element in ascending order — an
  injective, self-sized encoding, which is all the surrounding code
  relies on;
* `NumericIndex` restricted to a single field.  Keys of distinct fields
  occupy disjoint ranges of the key space (every cursor step in the
  source is guarded by a field-prefix check), so the state for one field
  is a forward map `Nat → Option Nat` (id to value) together with the
  list of buckets sorted by `base_value`, which is exactly the contents
  of the `numeric_inverted` sub-database under lexicographic key order
  (the base is encoded big-endian precisely so that byte order equals
  numeric order).  The MDBX cursor dance SET_RANGE / PREV / LAST over a
  sorted key space computes the floor bucket; it is embedded here with
  `takeWhile` / `dropWhile` on the sorted bucket list.

Machine integers are `Nat` with explicit bounds where overflow matters:
the only place 32-bit truncation is observable is the 16-bit entry
count written by `Bucket.serialize`, modelled by `% 2 ^ 16`.
-/

namespace NumericSpec

/-- MAX_SIZE from Bucket: a bucket saturates at 1024 entries. -/
def MAX_SIZE : Nat := 1024

/-- MAX_DELTA from Bucket: deltas are 16-bit. -/
def MAX_DELTA : Nat := 65535

/-! ## Sortable-key codec

`float_to_sortable` takes the IEEE-754 bit pattern of the float as a
`Nat` below `2 ^ 32`.  The source computes `mask = (int32(i) >> 31) |
0x80000000` and returns `i ^ mask`: for a clear sign bit the mask is
`0x80000000` and the XOR adds `2 ^ 31`; for a set sign bit the mask is
`0xFFFFFFFF` and the XOR is complement, `2 ^ 32 - 1 - i`. -/

def float_to_sortable (i : Nat) : Nat :=
  if i < 2 ^ 31 then i + 2 ^ 31 else 2 ^ 32 - 1 - i

/-- Inverse transform: the source computes `mask = ((i >> 31) - 1) |
0x80000000`, which is `0xFFFFFFFF` (complement) for a clear top bit and
`0x80000000` (subtract `2 ^ 31`) for a set top bit. -/
def sortable_to_float (j : Nat) : Nat :=
  if j < 2 ^ 31 then 2 ^ 32 - 1 - j else j - 2 ^ 31

/-- `static_cast<uint32_t>(i) ^ 0x80000000` on an int32 `i`: the
two's-complement pattern of `i` is `i % 2 ^ 32`; XOR-ing its sign bit
yields `i + 2 ^ 31` for every `i` in the int32 range. -/
def int_to_sortable (n : Int) : Nat := (n + 2 ^ 31).toNat

/-- `static_cast<int32_t>(i ^ 0x80000000)`: flipping the top bit and
reinterpreting as int32 subtracts `2 ^ 31` for every `u < 2 ^ 32`. -/
def sortable_to_int (u : Nat) : Int := (u : Int) - 2 ^ 31

/-- Finiteness of an IEEE-754 single-precision bit pattern: the
exponent field is not all ones (`0x7F800000` is the smallest
non-finite magnitude). -/
def finitePattern (p : Nat) : Prop := p % 2 ^ 31 < 0x7F800000

/-- IEEE-754 single-precision comparison `a < b` expressed on bit
patterns (valid for finite patterns): sign-magnitude compare, where
the magnitude order of finite floats coincides with the numeric order
of the low 31 bits, and `-0.0 < +0.0` is false. -/
def floatLtPattern (a b : Nat) : Prop :=
  if a / 2 ^ 31 = 1 then
    if b / 2 ^ 31 = 1 then b % 2 ^ 31 < a % 2 ^ 31
    else a % 2 ^ 31 ≠ 0 ∨ b % 2 ^ 31 ≠ 0
  else
    if b / 2 ^ 31 = 1 then False
    else a % 2 ^ 31 < b % 2 ^ 31

/-! ## Byte-level codecs

The bucket payload is little-endian; bytes are `Nat`s below 256. -/

/-- Little-endian bytes of a 16-bit word. -/
def le16 (n : Nat) : List Nat := [n % 256, n / 256 % 256]

/-- Little-endian bytes of a 32-bit word. -/
def le32 (n : Nat) : List Nat :=
  [n % 256, n / 256 % 256, n / 2 ^ 16 % 256, n / 2 ^ 24 % 256]

/-- Decode a 16-bit little-endian word. -/
def dec16 (l : List Nat) : Nat := l.getD 0 0 + 256 * l.getD 1 0

/-- Decode a 32-bit little-endian word. -/
def dec32 (l : List Nat) : Nat :=
  l.getD 0 0 + 256 * l.getD 1 0 + 2 ^ 16 * l.getD 2 0 + 2 ^ 24 * l.getD 3 0

/-- Split a byte string into 16-bit cells. -/
def chunks2 : List Nat → List (List Nat)
  | b0 :: b1 :: rest => [b0, b1] :: chunks2 rest
  | _ => []

/-- Split a byte string into 32-bit cells. -/
def chunks4 : List Nat → List (List Nat)
  | b0 :: b1 :: b2 :: b3 :: rest => [b0, b1, b2, b3] :: chunks4 rest
  | _ => []

/-- Serialized form of the roaring summary bitmap: its elements in
ascending order, one 32-bit little-endian word each (an injective
encoding whose byte length the header declares, as in the source). -/
def serializeBitmap (s : Finset Nat) : List Nat :=
  ((s.sort (· ≤ ·)).map le32).flatten

/-- Parse a serialized bitmap back into the set it denotes. -/
def deserializeBitmap (bytes : List Nat) : Finset Nat :=
  ((chunks4 bytes).map dec32).toFinset

/-! ## Bucket -/

/-- Bucket from numeric_index.hpp: `base_value` lives in the KV key;
`deltas` and `ids` are the parallel entry arrays; the roaring
`summary_bitmap` is modelled as the set of its members.  (`is_dirty`
is never read by the indexed operations and is omitted.) -/
structure Bucket where
  base_value : Nat
  deltas : List Nat
  ids : List Nat
  summary_bitmap : Finset Nat
deriving DecidableEq

/-- Index computed by `std::lower_bound(deltas.begin(), deltas.end(), delta)`
on a sorted vector: the number of leading elements strictly below `d`. -/
def lowerBound (l : List Nat) (d : Nat) : Nat :=
  (l.takeWhile (fun x => x < d)).length

/-- Bucket::add: reject `val` below the base or a delta above 16 bits,
otherwise insert the delta at the lower-bound position, the id at the
parallel position, and the id into the summary bitmap. -/
def Bucket.add (b : Bucket) (val id : Nat) : Except String Bucket :=
  if val < b.base_value then .error "Insert value < Base Value"
  else
    let delta := val - b.base_value
    if delta > MAX_DELTA then .error "Delta overflow"
    else
      let index := lowerBound b.deltas delta
      .ok { b with deltas := b.deltas.insertIdx index delta,
                   ids := b.ids.insertIdx index id,
                   summary_bitmap := insert id b.summary_bitmap }

/-- Bucket::remove: linear scan of `ids` for the first occurrence; on a
hit erase the parallel entries and drop the id from the bitmap (`none`
plays the role of the `false` return). -/
def Bucket.remove (b : Bucket) (id : Nat) : Option Bucket :=
  match b.ids.findIdx? (fun x => x = id) with
  | some i =>
      some { b with ids := b.ids.eraseIdx i,
                    deltas := b.deltas.eraseIdx i,
                    summary_bitmap := b.summary_bitmap.erase id }
  | none => none

/-- Bucket::serialize: `[bitmap_size (4)] [bitmap] [count (2)]
[deltas (2 each)] [ids (4 each, 32-bit id build)]`.  The count is the
id vector size truncated to 16 bits, and exactly `count` deltas and
ids are copied out, as in the source `memcpy`s. -/
def Bucket.serialize (b : Bucket) : List Nat :=
  let bm := serializeBitmap b.summary_bitmap
  let count := b.ids.length % 2 ^ 16
  le32 bm.length ++ bm ++ le16 count
    ++ ((b.deltas.take count).map le16).flatten
    ++ ((b.ids.take count).map le32).flatten

/-- Bucket::deserialize.  A buffer below the six-byte minimum returns
an empty bucket (`return b` in the source, not an error); afterwards a
declared bitmap size past the end, a missing count word, or entry data
past the end raise the corresponding corruption error. -/
def Bucket.deserialize (data : List Nat) (base_val : Nat) : Except String Bucket :=
  if data.length < 6 then .ok ⟨base_val, [], [], ∅⟩
  else
    let bm_size := dec32 (data.take 4)
    if 4 + bm_size > data.length then .error "Bucket corrupt: invalid bitmap size"
    else
      let summary := if 0 < bm_size then deserializeBitmap ((data.drop 4).take bm_size) else ∅
      let rest := data.drop (4 + bm_size)
      if rest.length < 2 then .error "Bucket corrupt: truncated count"
      else
        let count := dec16 (rest.take 2)
        let body := rest.drop 2
        if count = 0 then .ok ⟨base_val, [], [], summary⟩
        else if body.length < 2 * count + 4 * count then
          .error "Bucket corrupt: truncated Data"
        else
          .ok ⟨base_val, (chunks2 (body.take (2 * count))).map dec16,
               (chunks4 ((body.drop (2 * count)).take (4 * count))).map dec32,
               summary⟩

/-- Oversized single-value bucket used to witness the count truncation. -/
def bigBucket : Bucket :=
  ⟨0, List.replicate 65536 0, List.replicate 65536 1, (List.replicate 65536 1).toFinset⟩

/-! ## NumericIndex: single-field state -/

/-- State of one field of the index: the forward map (id to current
sortable value, sub-database numeric_forward) and the bucket list in
increasing base order (sub-database numeric_inverted, whose big-endian
keys make lexicographic order coincide with numeric base order). -/
structure IndexState where
  forward : Nat → Option Nat
  buckets : List Bucket

/-- A freshly created index. -/
def emptyState : IndexState := ⟨fun _ => none, []⟩

/-- Values resident in a bucket (base plus each delta). -/
def bucketValues (b : Bucket) : List Nat := b.deltas.map (fun d => b.base_value + d)

/-- MDBX put with MDBX_UPSERT of a bucket keyed by its base into the
sorted store. -/
def putBucket (nb : Bucket) : List Bucket → List Bucket
  | [] => [nb]
  | b :: rest =>
      if nb.base_value < b.base_value then nb :: b :: rest
      else if nb.base_value = b.base_value then nb :: rest
      else b :: putBucket nb rest

/-- The slide-split right probe of add_to_buckets: from the midpoint,
advance while the delta equals its left neighbour; the fuel
`ds.length - i` bounds the iteration count of the while loop. -/
def probeRightAux (ds : List Nat) : Nat → Nat → Nat
  | 0, i => i
  | fuel + 1, i =>
      if i < ds.length ∧ 0 < i ∧ ds.getD i 0 = ds.getD (i - 1) 0 then
        probeRightAux ds fuel (i + 1)
      else i

/-- Right probe entry point (`probe_right` in the source). -/
def probeRight (ds : List Nat) (i : Nat) : Nat := probeRightAux ds (ds.length - i) i

/-- The left fallback probe: retreat while the delta equals its left
neighbour. -/
def probeLeftAux (ds : List Nat) : Nat → Nat → Nat
  | 0, i => i
  | fuel + 1, i =>
      if 0 < i ∧ ds.getD i 0 = ds.getD (i - 1) 0 then probeLeftAux ds fuel (i - 1)
      else i

/-- Left probe entry point (`probe_left` in the source). -/
def probeLeft (ds : List Nat) (i : Nat) : Nat := probeLeftAux ds i i

/-- Cut index chosen by the slide split: probe right from the midpoint;
if that reaches the end, probe left; `deltas.length` signals that no
value-boundary cut exists (the single-value bucket). -/
def splitMid (b : Bucket) : Nat :=
  let mid0 := b.ids.length / 2
  let pr := probeRight b.deltas mid0
  if pr < b.deltas.length then pr
  else if 0 < probeLeft b.deltas mid0 then probeLeft b.deltas mid0
  else b.deltas.length

/-- NumericIndex::add_to_buckets for one field.  The cursor dance
(SET_RANGE, fallback to PREV or LAST, field-prefix checks) over the
sorted key space yields the floor bucket of `value`: the last bucket
with base ≤ value, i.e. the last element of the `takeWhile` prefix. -/
def add_to_buckets (bs : List Bucket) (value id : Nat) : Except String (List Bucket) :=
  let lo := bs.takeWhile (fun b => b.base_value ≤ value)
  let hi := bs.dropWhile (fun b => b.base_value ≤ value)
  match lo.getLast? with
  | none =>
      ((Bucket.mk value [] [] ∅).add value id).map (fun nb => putBucket nb bs)
  | some b =>
      if value - b.base_value ≤ MAX_DELTA then
        if MAX_SIZE ≤ b.ids.length then
          let mid := splitMid b
          if mid = b.deltas.length then
            (b.add value id).map (fun b2 => lo.dropLast ++ b2 :: hi)
          else
            let rightBase := b.base_value + b.deltas.getD mid 0
            let entries := (b.deltas.drop mid).zip (b.ids.drop mid)
            do
              let right1 ← entries.foldlM
                (fun rb e => rb.add (b.base_value + e.1) e.2) (Bucket.mk rightBase [] [] ∅)
              let left : Bucket :=
                ⟨b.base_value, b.deltas.take mid, b.ids.take mid, (b.ids.take mid).toFinset⟩
              if rightBase ≤ value then do
                let right2 ← right1.add value id
                pure (putBucket right2 (lo.dropLast ++ left :: hi))
              else do
                let left2 ← left.add value id
                pure (putBucket right1 (lo.dropLast ++ left2 :: hi))
        else
          (b.add value id).map (fun b2 => lo.dropLast ++ b2 :: hi)
      else
        ((Bucket.mk value [] [] ∅).add value id).map (fun nb => putBucket nb bs)

/-- NumericIndex::remove_from_buckets for one field: locate the floor
bucket of `value`; when it holds the id, delete it if it became empty,
else rewrite it. -/
def remove_from_buckets (bs : List Bucket) (value id : Nat) : List Bucket :=
  let lo := bs.takeWhile (fun b => b.base_value ≤ value)
  let hi := bs.dropWhile (fun b => b.base_value ≤ value)
  match lo.getLast? with
  | none => bs
  | some b =>
      match b.remove id with
      | none => bs
      | some b2 => if b2.ids.isEmpty then lo.dropLast ++ hi else lo.dropLast ++ b2 :: hi

/-- NumericIndex::put_internal: read the forward entry; an unchanged
value returns immediately; a differing old value is first removed from
its bucket; then the forward entry is upserted and the value added to
the inverted buckets. -/
def put_internal (s : IndexState) (id value : Nat) : Except String IndexState :=
  match s.forward id with
  | some old =>
      if old = value then .ok s
      else
        (add_to_buckets (remove_from_buckets s.buckets old id) value id).map
          (fun bs2 => ⟨fun x => if x = id then some value else s.forward x, bs2⟩)
  | none =>
      (add_to_buckets s.buckets value id).map
        (fun bs2 => ⟨fun x => if x = id then some value else s.forward x, bs2⟩)

/-- NumericIndex::put: the wrapping transaction commits on success and
aborts — leaving the state unchanged — when an error is thrown. -/
def put (s : IndexState) (id value : Nat) : IndexState :=
  match put_internal s id value with
  | .ok s2 => s2
  | .error _ => s

/-- NumericIndex::remove: a present forward entry is removed from its
bucket and deleted from the forward index. -/
def removeOp (s : IndexState) (id : Nat) : IndexState :=
  match s.forward id with
  | some old =>
      ⟨fun x => if x = id then none else s.forward x,
       remove_from_buckets s.buckets old id⟩
  | none => s

/-- Start position of the range scan: SET_RANGE to the bucket key of
min_val, stepping back to the predecessor when positioned past min_val
(and one exists), or to the last key when past the end. -/
def startIdx (bs : List Bucket) (minVal : Nat) : Nat :=
  let i := (bs.takeWhile (fun b => b.base_value < minVal)).length
  if h : i < bs.length then
    if (bs.get ⟨i, h⟩).base_value = minVal then i else i - 1
  else i - 1

/-- Per-bucket body of the range loop: on full overlap OR the whole
summary bitmap into the result, otherwise filter entry by entry. -/
def rangeContrib (b : Bucket) (minVal maxVal : Nat) : Finset Nat :=
  if b.ids.isEmpty then ∅
  else
    let bMin := b.base_value + b.deltas.headD 0
    let bMax := b.base_value + b.deltas.getLastD 0
    if minVal ≤ bMin ∧ bMax ≤ maxVal then b.summary_bitmap
    else (((b.deltas.zip b.ids).filter
        (fun e => minVal ≤ b.base_value + e.1 ∧ b.base_value + e.1 ≤ maxVal)).map
        (fun e => e.2)).toFinset

/-- The forward iteration of NumericIndex::range: union bucket
contributions, stopping once the bucket base passes max_val. -/
def rangeLoop (minVal maxVal : Nat) : List Bucket → Finset Nat
  | [] => ∅
  | b :: rest =>
      if maxVal < b.base_value then ∅
      else rangeContrib b minVal maxVal ∪ rangeLoop minVal maxVal rest

/-- NumericIndex::range for one field. -/
def rangeQuery (s : IndexState) (minVal maxVal : Nat) : Finset Nat :=
  rangeLoop minVal maxVal (s.buckets.drop (startIdx s.buckets minVal))

/-- A public mutating call of the index. -/
inductive Op where
  | put (id value : Nat)
  | del (id : Nat)

/-- Dispatch one call. -/
def applyOp (s : IndexState) : Op → IndexState
  | .put id value => put s id value
  | .del id => removeOp s id

/-- The state reached from a fresh index by a call sequence. -/
def run (ops : List Op) : IndexState := ops.foldl applyOp emptyState

/-! ## Invariants of reachable states -/

/-- Parallel (delta, id) entries of a bucket. -/
def entriesOf (b : Bucket) : List (Nat × Nat) := b.deltas.zip b.ids

/-- Well-formedness of a stored bucket: sorted deltas, parallel arrays,
16-bit deltas, the bitmap caching exactly the id set, and nonemptiness
(empty buckets are deleted from the store). -/
structure BucketWF (b : Bucket) : Prop where
  sorted : List.Chain' (· ≤ ·) b.deltas
  len_eq : b.deltas.length = b.ids.length
  bound : ∀ d ∈ b.deltas, d ≤ MAX_DELTA
  bitmap : b.summary_bitmap = b.ids.toFinset
  nonempty : b.ids ≠ []

/-- Total number of occurrences of an id across the bucket store. -/
def occCount (bs : List Bucket) (id : Nat) : Nat :=
  (bs.map (fun b => b.ids.count id)).sum

/-- Invariant tying the forward index to the bucket store of a field. -/
structure Inv (s : IndexState) : Prop where
  wf : ∀ b ∈ s.buckets, BucketWF b
  basesSorted : s.buckets.Pairwise (fun a b => a.base_value < b.base_value)
  sep : s.buckets.Pairwise (fun a b => ∀ v ∈ bucketValues a, v < b.base_value)
  fwdOfEntry : ∀ b ∈ s.buckets, ∀ e ∈ entriesOf b, s.forward e.2 = some (b.base_value + e.1)
  occ : ∀ id v, s.forward id = some v → occCount s.buckets id = 1

def c3wIds : List Nat := List.range 1024

def c3wDeltas : List Nat := List.replicate 512 0 ++ List.replicate 512 5

def c3wB : Bucket := ⟨100, c3wDeltas, c3wIds, c3wIds.toFinset⟩

def c3wFwd : Nat → Option Nat := fun x =>
  if x = 2000 then some 103
  else if x < 512 then some 100
  else if x < 1024 then some 105
  else none

instance (p : Nat) : Decidable (finitePattern p) := by
  unfold finitePattern; infer_instance

instance (a b : Nat) : Decidable (floatLtPattern a b) := by
  unfold floatLtPattern; infer_instance

/-- C5 counterexample: the bit pattern of -0.0 is 2 ^ 31 and that of
+0.0 is 0; both are finite, the encoder maps -0.0 strictly below +0.0,
yet -0.0 < +0.0 is false for IEEE floats, refuting the claimed
equivalence between code order and float order. -/
theorem c5_float_order_iff_fails_at_zeros :
    finitePattern (2 ^ 31) ∧ finitePattern 0 ∧
    float_to_sortable (2 ^ 31) < float_to_sortable 0 ∧
    ¬ floatLtPattern (2 ^ 31) 0 := by
  refine ⟨by decide, by decide, by decide, ?_⟩
  intro h
  simp only [floatLtPattern] at h
  norm_num at h

/-- C5 (amended): the codec round-trips bit-exactly on every 32-bit
pattern and is strictly order-preserving, except that the float
comparison direction `enc a < enc b → a < b` admits the single
extra pair (-0.0, +0.0), whose codes are distinct and adjacent while
the floats compare equal; the int codec is exactly order-preserving. -/
theorem c5_sortable_codec_order_and_roundtrip :
    (∀ i : Nat, i < 2 ^ 32 → sortable_to_float (float_to_sortable i) = i) ∧
    (∀ n : Int, -(2 ^ 31) ≤ n → n < 2 ^ 31 →
      sortable_to_int (int_to_sortable n) = n) ∧
    (∀ n m : Int, -(2 ^ 31) ≤ n → -(2 ^ 31) ≤ m →
      (int_to_sortable n < int_to_sortable m ↔ n < m)) ∧
    (∀ a b : Nat, a < 2 ^ 32 → b < 2 ^ 32 →
      finitePattern a → finitePattern b →
      (float_to_sortable a < float_to_sortable b ↔
        (floatLtPattern a b ∨ (a = 2 ^ 31 ∧ b = 0)))) := by
  refine ⟨?_, ?_, ?_, ?_⟩
  · intro i hi
    simp only [float_to_sortable, sortable_to_float]
    split_ifs <;> omega
  · intro n h1 h2
    simp only [int_to_sortable, sortable_to_int]
    omega
  · intro n m h1 h2
    simp only [int_to_sortable]
    omega
  · intro a b ha hb hfa hfb
    simp only [finitePattern] at hfa hfb
    simp only [float_to_sortable, floatLtPattern]
    split_ifs <;> try omega
    constructor
    · intro h
      exfalso
      omega
    · rintro (h | ⟨h1, h2⟩)
      · exact h.elim
      · omega

/-- C5 witness: the amended theorem evaluated at concrete inputs. -/
theorem c5_witness :
    sortable_to_float (float_to_sortable 5) = 5 ∧
    sortable_to_int (int_to_sortable (-7)) = -7 ∧
    (int_to_sortable (-7) < int_to_sortable 3 ↔ (-7 : Int) < 3) ∧
    (float_to_sortable 3 < float_to_sortable 9 ↔
      (floatLtPattern 3 9 ∨ ((3 : Nat) = 2 ^ 31 ∧ (9 : Nat) = 0))) :=
  ⟨c5_sortable_codec_order_and_roundtrip.1 5 (by decide),
   c5_sortable_codec_order_and_roundtrip.2.1 (-7) (by decide) (by decide),
   c5_sortable_codec_order_and_roundtrip.2.2.1 (-7) 3 (by decide) (by decide),
   c5_sortable_codec_order_and_roundtrip.2.2.2 3 9 (by norm_num) (by norm_num)
     (by decide) (by decide)⟩

/-! ## Serialization round trip -/

theorem dec16_le16 (n : Nat) (h : n < 2 ^ 16) : dec16 (le16 n) = n := by
  simp only [le16, dec16, List.getD_cons_zero, List.getD_cons_succ]
  omega

theorem dec32_le32 (n : Nat) (h : n < 2 ^ 32) : dec32 (le32 n) = n := by
  simp only [le32, dec32, List.getD_cons_zero, List.getD_cons_succ]
  omega

theorem chunks2_flatten_le16 (ds : List Nat) :
    chunks2 ((ds.map le16).flatten) = ds.map le16 := by
  induction ds with
  | nil => rfl
  | cons d rest ih =>
      simp only [List.map_cons, List.flatten_cons, le16]
      simp only [List.cons_append, List.nil_append, chunks2]
      exact congrArg _ ih

theorem chunks4_flatten_le32 (ds : List Nat) :
    chunks4 ((ds.map le32).flatten) = ds.map le32 := by
  induction ds with
  | nil => rfl
  | cons d rest ih =>
      simp only [List.map_cons, List.flatten_cons, le32]
      simp only [List.cons_append, List.nil_append, chunks4]
      exact congrArg _ ih

theorem map_dec16_map_le16 (ds : List Nat) (h : ∀ d ∈ ds, d < 2 ^ 16) :
    (ds.map le16).map dec16 = ds := by
  induction ds with
  | nil => rfl
  | cons d rest ih =>
      simp only [List.map_cons, List.cons.injEq]
      exact ⟨dec16_le16 d (h d (by simp)), ih (fun x hx => h x (by simp [hx]))⟩

theorem map_dec32_map_le32 (ds : List Nat) (h : ∀ d ∈ ds, d < 2 ^ 32) :
    (ds.map le32).map dec32 = ds := by
  induction ds with
  | nil => rfl
  | cons d rest ih =>
      simp only [List.map_cons, List.cons.injEq]
      exact ⟨dec32_le32 d (h d (by simp)), ih (fun x hx => h x (by simp [hx]))⟩

theorem flatten_map_le16_length (ds : List Nat) :
    ((ds.map le16).flatten).length = 2 * ds.length := by
  induction ds with
  | nil => rfl
  | cons d rest ih => simp only [List.map_cons, List.flatten_cons,
      List.length_append, ih, le16, List.length_cons, List.length_nil]; ring

theorem flatten_map_le32_length (ds : List Nat) :
    ((ds.map le32).flatten).length = 4 * ds.length := by
  induction ds with
  | nil => rfl
  | cons d rest ih => simp only [List.map_cons, List.flatten_cons,
      List.length_append, ih, le32, List.length_cons, List.length_nil]; ring

theorem serializeBitmap_roundtrip (s : Finset Nat) (h : ∀ x ∈ s, x < 2 ^ 32) :
    deserializeBitmap (serializeBitmap s) = s := by
  unfold deserializeBitmap serializeBitmap
  rw [chunks4_flatten_le32, map_dec32_map_le32]
  · exact Finset.sort_toFinset _ s
  · intro d hd
    exact h d ((Finset.mem_sort (α := Nat) (· ≤ ·)).mp hd)

theorem serializeBitmap_eq_nil_iff (s : Finset Nat) :
    serializeBitmap s = [] ↔ s = ∅ := by
  unfold serializeBitmap
  constructor
  · intro h
    have hl := congrArg List.length h
    rw [flatten_map_le32_length] at hl
    simp only [List.length_nil] at hl
    have : (s.sort (· ≤ ·)).length = 0 := by omega
    rw [Finset.length_sort] at this
    exact Finset.card_eq_zero.mp this
  · intro h
    subst h
    rw [Finset.sort_empty]
    rfl

theorem deserialize_append (base : Nat) (bmBytes dBytes iBytes : List Nat) (c : Nat)
    (hc : c < 2 ^ 16)
    (hbm : bmBytes.length < 2 ^ 32)
    (hD : dBytes.length = 2 * c) (hI : iBytes.length = 4 * c) :
    Bucket.deserialize (le32 bmBytes.length ++ bmBytes ++ le16 c ++ dBytes ++ iBytes) base =
      .ok ⟨base, (chunks2 dBytes).map dec16, (chunks4 iBytes).map dec32,
           if 0 < bmBytes.length then deserializeBitmap bmBytes else ∅⟩ := by
  set L := bmBytes.length with hLdef
  set data := le32 L ++ bmBytes ++ le16 c ++ dBytes ++ iBytes with hdata
  have hassoc : data = le32 L ++ (bmBytes ++ (le16 c ++ (dBytes ++ iBytes))) := by
    simp [hdata, List.append_assoc]
  have hdlen : data.length = 4 + L + 2 + 2 * c + 4 * c := by
    simp [hdata, le16, le32]
    omega
  have e2 : dec32 (data.take 4) = L := by
    rw [hassoc, List.take_left' (show (le32 L).length = 4 from rfl)]
    exact dec32_le32 L hbm
  have e4 : (data.drop 4).take L = bmBytes := by
    rw [hassoc, List.drop_left' (show (le32 L).length = 4 from rfl)]
    exact List.take_left' rfl
  have e5 : data.drop (4 + L) = le16 c ++ (dBytes ++ iBytes) := by
    have h2 : data = (le32 L ++ bmBytes) ++ (le16 c ++ (dBytes ++ iBytes)) := by
      simp [hdata, List.append_assoc]
    rw [h2]
    exact List.drop_left' (by simp [le32]; omega)
  have e7 : dec16 ((le16 c ++ (dBytes ++ iBytes)).take 2) = c := by
    rw [List.take_left' (show (le16 c).length = 2 from rfl)]
    exact dec16_le16 c hc
  have e8 : (le16 c ++ (dBytes ++ iBytes)).drop 2 = dBytes ++ iBytes :=
    List.drop_left' (show (le16 c).length = 2 from rfl)
  have e9 : (dBytes ++ iBytes).take (2 * c) = dBytes := List.take_left' hD
  have e10 : ((dBytes ++ iBytes).drop (2 * c)).take (4 * c) = iBytes := by
    rw [List.drop_left' hD]
    exact List.take_of_length_le (by omega)
  unfold Bucket.deserialize
  rw [if_neg (by omega)]
  simp only [e2, e4, e5, e7, e8, e9, e10]
  rw [if_neg (by omega)]
  rw [if_neg (by simp only [List.length_append, le16, List.length_cons, List.length_nil]; omega)]
  by_cases hc0 : c = 0
  · rw [if_pos hc0]
    subst hc0
    have hDnil : dBytes = [] := List.length_eq_zero.mp (by omega)
    have hInil : iBytes = [] := List.length_eq_zero.mp (by omega)
    subst hDnil hInil
    rfl
  · rw [if_neg hc0]
    rw [if_neg (by simp only [List.length_append]; omega)]

theorem deserialize_serialize (b : Bucket)
    (hlen : b.deltas.length = b.ids.length)
    (hd : ∀ d ∈ b.deltas, d ≤ MAX_DELTA)
    (hi : ∀ x ∈ b.ids, x < 2 ^ 32)
    (hs : ∀ x ∈ b.summary_bitmap, x < 2 ^ 32)
    (hcard : b.summary_bitmap.card < 2 ^ 30) :
    Bucket.deserialize b.serialize b.base_value =
      .ok ⟨b.base_value, b.deltas.take (b.ids.length % 2 ^ 16),
           b.ids.take (b.ids.length % 2 ^ 16), b.summary_bitmap⟩ := by
  have hc : b.ids.length % 2 ^ 16 < 2 ^ 16 := Nat.mod_lt _ (by norm_num)
  have hcle : b.ids.length % 2 ^ 16 ≤ b.ids.length := Nat.mod_le _ _
  have hbmlen : (serializeBitmap b.summary_bitmap).length = 4 * b.summary_bitmap.card := by
    unfold serializeBitmap
    rw [flatten_map_le32_length, Finset.length_sort]
  have hDlen : (((b.deltas.take (b.ids.length % 2 ^ 16)).map le16).flatten).length
      = 2 * (b.ids.length % 2 ^ 16) := by
    rw [flatten_map_le16_length, List.length_take]
    omega
  have hIlen : (((b.ids.take (b.ids.length % 2 ^ 16)).map le32).flatten).length
      = 4 * (b.ids.length % 2 ^ 16) := by
    rw [flatten_map_le32_length, List.length_take]
    omega
  unfold Bucket.serialize
  rw [deserialize_append b.base_value _ _ _ _ hc (by omega) hDlen hIlen]
  rw [chunks2_flatten_le16, chunks4_flatten_le32]
  rw [map_dec16_map_le16 _ (fun d hdm => by
    have := hd d (List.mem_of_mem_take hdm)
    simp [MAX_DELTA] at this
    omega)]
  rw [map_dec32_map_le32 _ (fun x hxm => hi x (List.mem_of_mem_take hxm))]
  by_cases hbm0 : b.summary_bitmap = ∅
  · rw [hbm0]
    simp [serializeBitmap, Finset.sort_empty]
  · rw [if_pos (by
      rcases Nat.eq_zero_or_pos (serializeBitmap b.summary_bitmap).length with h0 | h0
      · exact absurd ((serializeBitmap_eq_nil_iff _).mp (List.length_eq_zero.mp h0)) hbm0
      · exact h0)]
    rw [serializeBitmap_roundtrip _ hs]

/-- C6: serialize/deserialize round-trip for buckets within the 16-bit
count range: deserializing the serialized payload with the bucket's own
base value recovers the ids, deltas and summary-bitmap contents. -/
theorem c6_serialize_roundtrip (b : Bucket)
    (hlen : b.deltas.length = b.ids.length)
    (hsize : b.ids.length ≤ 65535)
    (hd : ∀ d ∈ b.deltas, d ≤ MAX_DELTA)
    (hi : ∀ x ∈ b.ids, x < 2 ^ 32)
    (hbmp : b.summary_bitmap = b.ids.toFinset) :
    Bucket.deserialize b.serialize b.base_value = .ok b := by
  have hs : ∀ x ∈ b.summary_bitmap, x < 2 ^ 32 := by
    intro x hx
    rw [hbmp] at hx
    exact hi x (List.mem_toFinset.mp hx)
  have hcard : b.summary_bitmap.card < 2 ^ 30 := by
    rw [hbmp]
    calc b.ids.toFinset.card ≤ b.ids.length := b.ids.toFinset_card_le
      _ < 2 ^ 30 := by omega
  have hmod : b.ids.length % 2 ^ 16 = b.ids.length := Nat.mod_eq_of_lt (by omega)
  rw [deserialize_serialize b hlen hd hi hs hcard, hmod]
  rw [List.take_of_length_le (le_of_eq hlen), List.take_of_length_le (le_refl _)]

/-- C6 witness: the round trip applied to a concrete two-entry bucket. -/
theorem c6_witness :
    Bucket.deserialize (Bucket.mk 7 [0, 3] [5, 9] ([5, 9] : List Nat).toFinset).serialize 7 =
      .ok (Bucket.mk 7 [0, 3] [5, 9] ([5, 9] : List Nat).toFinset) :=
  c6_serialize_roundtrip _ (by decide) (by decide) (by decide) (by decide) rfl

/-- C7 counterexample: the empty buffer is shorter than six bytes, yet
deserialize returns an empty bucket instead of raising an error. -/
theorem c7_short_buffer_counterexample :
    Bucket.deserialize [] 0 = .ok ⟨0, [], [], ∅⟩ := rfl

/-- C7 (amended): buffers shorter than six bytes deserialize to an
empty bucket without error; for buffers of at least six bytes,
deserialize fails exactly when the declared bitmap size, the count
word, or the declared entry data would read past the buffer end. -/
theorem c7_deserialize_error_characterization (data : List Nat) (base : Nat) :
    (data.length < 6 → Bucket.deserialize data base = .ok ⟨base, [], [], ∅⟩) ∧
    (6 ≤ data.length →
      ((∃ e, Bucket.deserialize data base = .error e) ↔
        (data.length < 4 + dec32 (data.take 4) ∨
         (data.drop (4 + dec32 (data.take 4))).length < 2 ∨
         (0 < dec16 ((data.drop (4 + dec32 (data.take 4))).take 2) ∧
          ((data.drop (4 + dec32 (data.take 4))).drop 2).length <
            6 * dec16 ((data.drop (4 + dec32 (data.take 4))).take 2))))) := by
  unfold Bucket.deserialize
  constructor
  · intro hlt
    rw [if_pos hlt]
  · intro hge
    rw [if_neg (by omega)]
    simp only []
    split_ifs with h1 h2 h3 h4 <;> simp_all <;> omega

/-- C7 witness: the amended characterization at a six-byte buffer whose
declared bitmap size overruns the buffer. -/
theorem c7_witness :
    (6 ≤ ([9, 0, 0, 0, 0, 0] : List Nat).length) ∧
    ((∃ e, Bucket.deserialize [9, 0, 0, 0, 0, 0] 0 = .error e) ↔
      (([9, 0, 0, 0, 0, 0] : List Nat).length <
          4 + dec32 (([9, 0, 0, 0, 0, 0] : List Nat).take 4) ∨
       (([9, 0, 0, 0, 0, 0] : List Nat).drop
          (4 + dec32 (([9, 0, 0, 0, 0, 0] : List Nat).take 4))).length < 2 ∨
       (0 < dec16 ((([9, 0, 0, 0, 0, 0] : List Nat).drop
            (4 + dec32 (([9, 0, 0, 0, 0, 0] : List Nat).take 4))).take 2) ∧
        ((([9, 0, 0, 0, 0, 0] : List Nat).drop
            (4 + dec32 (([9, 0, 0, 0, 0, 0] : List Nat).take 4))).drop 2).length <
          6 * dec16 ((([9, 0, 0, 0, 0, 0] : List Nat).drop
            (4 + dec32 (([9, 0, 0, 0, 0, 0] : List Nat).take 4))).take 2)))) :=
  ⟨by decide, (c7_deserialize_error_characterization [9, 0, 0, 0, 0, 0] 0).2 (by decide)⟩

/-- C10: the serialized entry count is the id count modulo 2 ^ 16, so a
bucket in the oversize relaxation beyond 65535 entries serializes to a
payload that declares a truncated count and does not deserialize back
to the original bucket. -/
theorem c10_count_truncation (b : Bucket)
    (hlen : b.deltas.length = b.ids.length)
    (hd : ∀ d ∈ b.deltas, d ≤ MAX_DELTA)
    (hi : ∀ x ∈ b.ids, x < 2 ^ 32)
    (hbmp : b.summary_bitmap = b.ids.toFinset)
    (hbig : 2 ^ 16 ≤ b.ids.length) (hsmall : b.ids.length < 2 ^ 30) :
    (∃ b2, Bucket.deserialize b.serialize b.base_value = .ok b2 ∧
      b2.ids = b.ids.take (b.ids.length % 2 ^ 16) ∧
      b2.ids.length < b.ids.length) ∧
    Bucket.deserialize b.serialize b.base_value ≠ .ok b := by
  have hs : ∀ x ∈ b.summary_bitmap, x < 2 ^ 32 := by
    intro x hx
    rw [hbmp] at hx
    exact hi x (List.mem_toFinset.mp hx)
  have hcard : b.summary_bitmap.card < 2 ^ 30 := by
    rw [hbmp]
    calc b.ids.toFinset.card ≤ b.ids.length := b.ids.toFinset_card_le
      _ < 2 ^ 30 := by omega
  have htrunc : b.ids.length % 2 ^ 16 < b.ids.length :=
    lt_of_lt_of_le (Nat.mod_lt _ (by norm_num)) hbig
  have hres := deserialize_serialize b hlen hd hi hs hcard
  have hlen2 : (b.ids.take (b.ids.length % 2 ^ 16)).length = b.ids.length % 2 ^ 16 := by
    rw [List.length_take]
    omega
  refine ⟨⟨_, hres, rfl, ?_⟩, ?_⟩
  · rw [hlen2]
    exact htrunc
  · intro hcontra
    rw [hres] at hcontra
    have hb2 := Except.ok.inj hcontra
    have := congrArg (fun x => x.ids.length) hb2
    simp only at this
    rw [hlen2] at this
    omega

/-- C10 witness: a 65536-entry single-value bucket loses entries. -/
theorem c10_witness :
    (∃ b2, Bucket.deserialize bigBucket.serialize bigBucket.base_value = .ok b2 ∧
      b2.ids = bigBucket.ids.take (bigBucket.ids.length % 2 ^ 16) ∧
      b2.ids.length < bigBucket.ids.length) ∧
    Bucket.deserialize bigBucket.serialize bigBucket.base_value ≠ .ok bigBucket :=
  c10_count_truncation bigBucket
    (by rw [show bigBucket.deltas = List.replicate 65536 0 from rfl,
            show bigBucket.ids = List.replicate 65536 1 from rfl,
            List.length_replicate, List.length_replicate])
    (by
      intro d hd
      rw [show bigBucket.deltas = List.replicate 65536 0 from rfl] at hd
      rw [List.eq_of_mem_replicate hd]
      norm_num [MAX_DELTA])
    (by
      intro x hx
      rw [show bigBucket.ids = List.replicate 65536 1 from rfl] at hx
      rw [List.eq_of_mem_replicate hx]
      norm_num)
    rfl
    (by rw [show bigBucket.ids = List.replicate 65536 1 from rfl, List.length_replicate]; norm_num)
    (by rw [show bigBucket.ids = List.replicate 65536 1 from rfl, List.length_replicate]; norm_num)

/-! ## Bucket.add -/

theorem lowerBound_nil (d : Nat) : lowerBound [] d = 0 := rfl

theorem lowerBound_cons (x : Nat) (t : List Nat) (d : Nat) :
    lowerBound (x :: t) d = if x < d then lowerBound t d + 1 else 0 := by
  simp only [lowerBound, List.takeWhile_cons]
  by_cases h : x < d <;> simp [h]

theorem lowerBound_le_length (l : List Nat) (d : Nat) : lowerBound l d ≤ l.length :=
  le_trans (List.Sublist.length_le (List.takeWhile_sublist _)) (le_refl _)

theorem insertIdx_lowerBound_eq_orderedInsert (d : Nat) (l : List Nat) :
    l.insertIdx (lowerBound l d) d = l.orderedInsert (· ≤ ·) d := by
  induction l with
  | nil => rfl
  | cons x t ih =>
      rw [lowerBound_cons]
      by_cases h : x < d
      · rw [if_pos h, List.insertIdx_succ_cons, List.orderedInsert, if_neg (by omega)]
        exact congrArg _ ih
      · rw [if_neg h, List.orderedInsert, if_pos (by omega)]
        rfl

theorem chain'_le_insertIdx_lowerBound (d : Nat) (l : List Nat)
    (h : List.Chain' (· ≤ ·) l) :
    List.Chain' (· ≤ ·) (l.insertIdx (lowerBound l d) d) := by
  rw [insertIdx_lowerBound_eq_orderedInsert]
  rw [List.chain'_iff_pairwise] at h ⊢
  exact List.Sorted.orderedInsert d l h

/-- C8: Bucket.add fails with the invariant-violation errors exactly
when the value lies below the bucket base or more than 65535 above it;
otherwise it inserts the delta at the lower-bound position (keeping the
deltas non-decreasing), the id at the parallel position, and the id
into the summary bitmap. -/
theorem c8_bucket_add_spec (b : Bucket) (v id : Nat) :
    ((∃ e, b.add v id = .error e) ↔ (v < b.base_value ∨ MAX_DELTA < v - b.base_value)) ∧
    (∀ b2, b.add v id = .ok b2 →
      b2.base_value = b.base_value ∧
      b2.deltas = b.deltas.insertIdx (lowerBound b.deltas (v - b.base_value))
        (v - b.base_value) ∧
      b2.ids = b.ids.insertIdx (lowerBound b.deltas (v - b.base_value)) id ∧
      b2.summary_bitmap = insert id b.summary_bitmap ∧
      (List.Chain' (· ≤ ·) b.deltas → List.Chain' (· ≤ ·) b2.deltas)) := by
  constructor
  · unfold Bucket.add
    simp only []
    split_ifs with h1 h2 <;> simp_all
  · intro b2 hok
    unfold Bucket.add at hok
    simp only [] at hok
    split_ifs at hok with h1 h2
    have hb2 := Except.ok.inj hok
    subst hb2
    refine ⟨rfl, rfl, rfl, rfl, fun hs => chain'_le_insertIdx_lowerBound _ _ hs⟩

/-- C8 witness: adding value 12 to a bucket based at 10 with deltas
[1, 3]. -/
theorem c8_witness :
    ((∃ e, (Bucket.mk 10 [1, 3] [4, 6] {4, 6}).add 12 9 = .error e) ↔
      ((12 : Nat) < 10 ∨ MAX_DELTA < 12 - 10)) ∧
    (∀ b2, (Bucket.mk 10 [1, 3] [4, 6] {4, 6}).add 12 9 = .ok b2 →
      b2.base_value = 10 ∧
      b2.deltas = ([1, 3] : List Nat).insertIdx (lowerBound [1, 3] (12 - 10)) (12 - 10) ∧
      b2.ids = ([4, 6] : List Nat).insertIdx (lowerBound [1, 3] (12 - 10)) 9 ∧
      b2.summary_bitmap = insert 9 {4, 6} ∧
      (List.Chain' (· ≤ ·) [1, 3] → List.Chain' (· ≤ ·) b2.deltas)) :=
  c8_bucket_add_spec (Bucket.mk 10 [1, 3] [4, 6] {4, 6}) 12 9

theorem occCount_nil (id : Nat) : occCount [] id = 0 := rfl

theorem occCount_cons (b : Bucket) (bs : List Bucket) (id : Nat) :
    occCount (b :: bs) id = b.ids.count id + occCount bs id := by
  simp [occCount]

theorem occCount_append (bs1 bs2 : List Bucket) (id : Nat) :
    occCount (bs1 ++ bs2) id = occCount bs1 id + occCount bs2 id := by
  simp [occCount]

theorem mem_ids_iff_entries (b : Bucket) (hlen : b.deltas.length = b.ids.length) (id : Nat) :
    id ∈ b.ids ↔ ∃ d, (d, id) ∈ entriesOf b := by
  constructor
  · intro h
    obtain ⟨n, hn, hget⟩ := List.mem_iff_getElem.mp h
    have hn2 : n < b.deltas.length := by omega
    refine ⟨b.deltas[n], List.mem_iff_getElem.mpr ⟨n, ?_, ?_⟩⟩
    · simp [entriesOf, List.length_zip]
      omega
    · simp only [entriesOf]
      rw [List.getElem_zip]
      simp [hget]
  · rintro ⟨d, hd⟩
    exact (List.of_mem_zip hd).2

theorem count_pos_iff_mem {l : List Nat} {x : Nat} : 0 < l.count x ↔ x ∈ l :=
  List.count_pos_iff

theorem occCount_pos_of_mem {bs : List Bucket} {b : Bucket} {id : Nat}
    (hb : b ∈ bs) (hid : id ∈ b.ids) : 0 < occCount bs id := by
  induction bs with
  | nil => cases hb
  | cons hd tl ih =>
      rw [occCount_cons]
      rcases List.mem_cons.mp hb with h | h
      · subst h
        have := count_pos_iff_mem.mpr hid
        omega
      · have := ih h
        omega

theorem occCount_eq_zero_of_not_mem (bs : List Bucket) (id : Nat)
    (hno : ∀ b ∈ bs, id ∉ b.ids) : occCount bs id = 0 := by
  induction bs with
  | nil => rfl
  | cons hd tl ih =>
      rw [occCount_cons, List.count_eq_zero.mpr (hno hd (by simp))]
      simp only [Nat.zero_add]
      exact ih (fun b hb => hno b (by simp [hb]))

/-- From the invariant pieces: an id absent from the forward map occurs
in no bucket. -/
theorem occCount_eq_zero_of_forward_none (s : IndexState)
    (hwf : ∀ b ∈ s.buckets, BucketWF b)
    (hfwd : ∀ b ∈ s.buckets, ∀ e ∈ entriesOf b, s.forward e.2 = some (b.base_value + e.1))
    (id : Nat) (hnone : s.forward id = none) : occCount s.buckets id = 0 := by
  refine occCount_eq_zero_of_not_mem s.buckets id (fun b hb hid => ?_)
  obtain ⟨d, hd⟩ := (mem_ids_iff_entries b (hwf b hb).len_eq id).mp hid
  have := hfwd b hb (d, id) hd
  rw [hnone] at this
  cases this

/-! ## Bucket.add characterization -/

theorem zip_insertIdx (ds is : List Nat) (n : Nat) (d x : Nat)
    (hlen : ds.length = is.length) (hn : n ≤ ds.length) :
    (ds.insertIdx n d).zip (is.insertIdx n x) = (ds.zip is).insertIdx n (d, x) := by
  induction n generalizing ds is with
  | zero =>
      cases ds <;> cases is <;> simp
  | succ n ih =>
      cases ds with
      | nil => simp at hn
      | cons a ds2 =>
          cases is with
          | nil => simp at hlen
          | cons c is2 =>
              simp only [List.insertIdx_succ_cons, List.zip_cons_cons]
              rw [ih ds2 is2 (by simpa using hlen) (by simpa using hn)]

theorem add_eq_ok (b : Bucket) (v id : Nat)
    (h1 : b.base_value ≤ v) (h2 : v - b.base_value ≤ MAX_DELTA) :
    b.add v id = .ok
      ⟨b.base_value,
       b.deltas.insertIdx (lowerBound b.deltas (v - b.base_value)) (v - b.base_value),
       b.ids.insertIdx (lowerBound b.deltas (v - b.base_value)) id,
       insert id b.summary_bitmap⟩ := by
  unfold Bucket.add
  rw [if_neg (by omega), if_neg (by omega)]

theorem add_ok_props (b : Bucket) (v id : Nat) (b2 : Bucket)
    (hlen : b.deltas.length = b.ids.length)
    (hok : b.add v id = .ok b2) :
    b2.base_value = b.base_value ∧
    b2.deltas.length = b2.ids.length ∧
    (entriesOf b2).Perm ((v - b.base_value, id) :: entriesOf b) ∧
    b2.ids.Perm (id :: b.ids) ∧
    b2.summary_bitmap = insert id b.summary_bitmap ∧
    (List.Chain' (· ≤ ·) b.deltas → List.Chain' (· ≤ ·) b2.deltas) ∧
    b2.deltas.Perm ((v - b.base_value) :: b.deltas) ∧
    b.base_value ≤ v ∧ v - b.base_value ≤ MAX_DELTA := by
  unfold Bucket.add at hok
  simp only [] at hok
  split_ifs at hok with h1 h2
  have hb2 := Except.ok.inj hok
  subst hb2
  have hidx : lowerBound b.deltas (v - b.base_value) ≤ b.deltas.length :=
    lowerBound_le_length _ _
  have hziplen : lowerBound b.deltas (v - b.base_value) ≤ (b.deltas.zip b.ids).length := by
    rw [List.length_zip]
    omega
  refine ⟨rfl, ?_, ?_, ?_, rfl, ?_, ?_, by omega, by omega⟩
  · rw [(List.perm_insertIdx (v - b.base_value) b.deltas hidx).length_eq,
        (List.perm_insertIdx id b.ids
          (show lowerBound b.deltas (v - b.base_value) ≤ b.ids.length by omega)).length_eq]
    simp [hlen]
  · simp only [entriesOf]
    rw [zip_insertIdx _ _ _ _ _ hlen hidx]
    exact List.perm_insertIdx _ _ hziplen
  · exact List.perm_insertIdx _ _ (by omega)
  · exact fun hs => chain'_le_insertIdx_lowerBound _ _ hs
  · exact List.perm_insertIdx _ _ hidx

theorem add_preserves_wf (b b2 : Bucket) (v id : Nat) (hwf : BucketWF b)
    (hok : b.add v id = .ok b2) : BucketWF b2 := by
  obtain ⟨hbase, hlen2, hent, hids, hbmp, hsort, hdel, hle, hdelta⟩ :=
    add_ok_props b v id b2 hwf.len_eq hok
  refine ⟨hsort hwf.sorted, hlen2, ?_, ?_, ?_⟩
  · intro d hd
    have := hdel.mem_iff.mp hd
    rcases List.mem_cons.mp this with h | h
    · omega
    · exact hwf.bound d h
  · rw [hbmp, hwf.bitmap, List.toFinset_eq_of_perm _ _ hids]
    simp
  · intro hnil
    have := hids.length_eq
    rw [hnil] at this
    simp at this

/-- Values of the bucket produced by a successful add: the new value
joins the resident values. -/
theorem add_values (b : Bucket) (v id : Nat) (b2 : Bucket)
    (hlen : b.deltas.length = b.ids.length)
    (hok : b.add v id = .ok b2) :
    (bucketValues b2).Perm (v :: bucketValues b) ∧ b2.base_value = b.base_value := by
  obtain ⟨hbase, hlen2, hent, hids, hbmp, hsort, hdel, hle, hdelta⟩ :=
    add_ok_props b v id b2 hlen hok
  constructor
  · have := hdel.map (fun d => b.base_value + d)
    simp only [List.map_cons] at this
    rw [Nat.add_sub_cancel' hle] at this
    unfold bucketValues
    rw [hbase]
    exact this
  · exact hbase

/-! ## Bucket.remove characterization -/

theorem perm_getElem_cons_eraseIdx (l : List Nat) (i : Nat) (h : i < l.length) :
    l.Perm (l[i] :: l.eraseIdx i) := by
  conv_lhs => rw [← List.take_append_drop i l, ← List.getElem_cons_drop l i h]
  rw [List.eraseIdx_eq_take_drop_succ]
  exact List.perm_middle

theorem perm_pair_getElem_cons_eraseIdx (l : List (Nat × Nat)) (i : Nat) (h : i < l.length) :
    l.Perm (l[i] :: l.eraseIdx i) := by
  conv_lhs => rw [← List.take_append_drop i l, ← List.getElem_cons_drop l i h]
  rw [List.eraseIdx_eq_take_drop_succ]
  exact List.perm_middle

theorem zip_eraseIdx (ds is : List Nat) (n : Nat) (hlen : ds.length = is.length) :
    (ds.eraseIdx n).zip (is.eraseIdx n) = (ds.zip is).eraseIdx n := by
  induction n generalizing ds is with
  | zero => cases ds <;> cases is <;> simp
  | succ n ih =>
      cases ds with
      | nil => simp
      | cons a ds2 =>
          cases is with
          | nil => simp at hlen
          | cons c is2 =>
              simp only [List.eraseIdx_cons_succ, List.zip_cons_cons]
              rw [ih ds2 is2 (by simpa using hlen)]

theorem remove_eq_none_iff (b : Bucket) (id : Nat) :
    b.remove id = none ↔ id ∉ b.ids := by
  unfold Bucket.remove
  constructor
  · intro h hmem
    cases hfi : b.ids.findIdx? (fun x => x = id) with
    | none =>
        have := List.findIdx?_eq_none_iff.mp hfi id hmem
        simp at this
    | some i => rw [hfi] at h; cases h
  · intro hmem
    cases hfi : b.ids.findIdx? (fun x => x = id) with
    | none => rfl
    | some i =>
        obtain ⟨hi, hp, _⟩ := List.findIdx?_eq_some_iff_getElem.mp hfi
        exfalso
        apply hmem
        have : b.ids[i] = id := by simpa using hp
        rw [← this]
        exact List.getElem_mem hi

theorem remove_some_props (b : Bucket) (id : Nat) (b2 : Bucket)
    (hlen : b.deltas.length = b.ids.length)
    (hok : b.remove id = some b2) :
    b2.base_value = b.base_value ∧
    b2.deltas.length = b2.ids.length ∧
    b2.summary_bitmap = b.summary_bitmap.erase id ∧
    (List.Chain' (· ≤ ·) b.deltas → List.Chain' (· ≤ ·) b2.deltas) ∧
    (∀ d ∈ b2.deltas, d ∈ b.deltas) ∧
    ∃ d, (entriesOf b).Perm ((d, id) :: entriesOf b2) ∧
      b.ids.Perm (id :: b2.ids) ∧ b.deltas.Perm (d :: b2.deltas) := by
  unfold Bucket.remove at hok
  cases hfi : b.ids.findIdx? (fun x => x = id) with
  | none => rw [hfi] at hok; cases hok
  | some i =>
      rw [hfi] at hok
      have hb2 := Option.some.inj hok
      subst hb2
      obtain ⟨hi, hp, _⟩ := List.findIdx?_eq_some_iff_getElem.mp hfi
      have hgi : b.ids[i] = id := by simpa using hp
      have hdlen : i < b.deltas.length := by omega
      have hzlen : i < (b.deltas.zip b.ids).length := by
        rw [List.length_zip]
        omega
      refine ⟨rfl, ?_, rfl, ?_, ?_, ?_⟩
      · simp only []
        have h1 := List.length_eraseIdx_add_one hdlen
        have h2 := List.length_eraseIdx_add_one hi
        omega
      · intro hs
        exact hs.sublist (List.eraseIdx_sublist _ _)
      · intro d hd
        exact (List.eraseIdx_sublist _ _).mem hd
      · refine ⟨b.deltas[i], ?_, ?_, ?_⟩
        · simp only [entriesOf]
          rw [zip_eraseIdx _ _ _ hlen]
          have := perm_pair_getElem_cons_eraseIdx (b.deltas.zip b.ids) i hzlen
          rw [List.getElem_zip] at this
          rw [hgi] at this
          exact this
        · have := perm_getElem_cons_eraseIdx b.ids i hi
          rw [hgi] at this
          exact this
        · exact perm_getElem_cons_eraseIdx b.deltas i hdlen

/-! ## Floor-bucket decomposition -/

theorem takeWhile_base_le (bs : List Bucket) (v : Nat) :
    ∀ b ∈ bs.takeWhile (fun b => b.base_value ≤ v), b.base_value ≤ v := by
  intro b hb
  simpa using List.mem_takeWhile_imp hb

theorem dropWhile_base_gt (bs : List Bucket) (v : Nat)
    (hsorted : bs.Pairwise (fun a b => a.base_value < b.base_value)) :
    ∀ b ∈ bs.dropWhile (fun b => b.base_value ≤ v), v < b.base_value := by
  intro b hb
  cases hhd : bs.dropWhile (fun b => b.base_value ≤ v) with
  | nil => rw [hhd] at hb; cases hb
  | cons h t =>
      have hhead : ¬ h.base_value ≤ v := by
        have := List.head?_dropWhile_not (fun b => decide (b.base_value ≤ v)) bs
        rw [hhd] at this
        simpa using this
      rw [hhd] at hb
      rcases List.mem_cons.mp hb with rfl | hm
      · omega
      · have hsub : (bs.dropWhile (fun b => b.base_value ≤ v)).Pairwise
            (fun a b => a.base_value < b.base_value) :=
          List.Pairwise.sublist (List.dropWhile_sublist _) hsorted
        rw [hhd] at hsub
        have := (List.pairwise_cons.mp hsub).1 b hm
        omega

theorem cover_decomp (bs : List Bucket) (v : Nat) (b : Bucket)
    (hlast : (bs.takeWhile (fun b => b.base_value ≤ v)).getLast? = some b) :
    bs = (bs.takeWhile (fun b => b.base_value ≤ v)).dropLast ++ b ::
      bs.dropWhile (fun b => b.base_value ≤ v) := by
  have h1 := List.dropLast_append_getLast? b hlast
  conv_lhs => rw [← List.takeWhile_append_dropWhile (fun b => decide (b.base_value ≤ v)) bs]
  rw [← h1]
  simp

theorem mem_of_getLast?_eq_some {l : List Bucket} {b : Bucket}
    (h : l.getLast? = some b) : b ∈ l := by
  obtain ⟨ys, rfl⟩ := List.getLast?_eq_some_iff.mp h
  simp

theorem exists_mem_of_occCount_pos (bs : List Bucket) (id : Nat)
    (h : 0 < occCount bs id) : ∃ b ∈ bs, id ∈ b.ids := by
  by_contra hno
  push_neg at hno
  rw [occCount_eq_zero_of_not_mem bs id hno] at h
  omega

theorem base_le_of_value_mem (B : Bucket) (v : Nat) (hv : v ∈ bucketValues B) :
    B.base_value ≤ v := by
  obtain ⟨d, hd, rfl⟩ := List.mem_map.mp hv
  omega

/-- A value resident in a stored bucket identifies that bucket as the
floor bucket the cursor dance finds. -/
theorem floor_eq_bucket_of_value_mem (bs : List Bucket) (v : Nat) (B : Bucket)
    (hsorted : bs.Pairwise (fun a b => a.base_value < b.base_value))
    (hsep : bs.Pairwise (fun a b => ∀ w ∈ bucketValues a, w < b.base_value))
    (hB : B ∈ bs) (hv : v ∈ bucketValues B) :
    (bs.takeWhile (fun b => b.base_value ≤ v)).getLast? = some B := by
  have hBle : B.base_value ≤ v := base_le_of_value_mem B v hv
  have hsplit := List.takeWhile_append_dropWhile (fun b => decide (b.base_value ≤ v)) bs
  have hBlo : B ∈ bs.takeWhile (fun b => b.base_value ≤ v) := by
    have : B ∈ bs.takeWhile (fun b => b.base_value ≤ v) ∨
        B ∈ bs.dropWhile (fun b => b.base_value ≤ v) := by
      rw [← List.mem_append, hsplit]
      exact hB
    rcases this with h | h
    · exact h
    · have := dropWhile_base_gt bs v hsorted B h
      omega
  cases hlast : (bs.takeWhile (fun b => b.base_value ≤ v)).getLast? with
  | none =>
      rw [List.getLast?_eq_none_iff.mp hlast] at hBlo
      cases hBlo
  | some L =>
      obtain ⟨ys, hys⟩ := List.getLast?_eq_some_iff.mp hlast
      rw [hys] at hBlo
      rcases List.mem_append.mp hBlo with hBys | hBL
      · exfalso
        have hlosub : (bs.takeWhile (fun b => b.base_value ≤ v)).Pairwise
            (fun a b => ∀ w ∈ bucketValues a, w < b.base_value) :=
          List.Pairwise.sublist (List.takeWhile_sublist _) hsep
        rw [hys] at hlosub
        have hBL2 := ((List.pairwise_append.mp hlosub).2.2 B hBys L (by simp)) v hv
        have hLle : L.base_value ≤ v := by
          refine takeWhile_base_le bs v L ?_
          rw [hys]
          simp
        omega
      · simp only [List.mem_singleton] at hBL
        rw [hBL]

theorem pairwise_middle_intro {α : Type} {R : α → α → Prop} {pre hi : List α} {b2 : α}
    (hpre : pre.Pairwise R) (hhi : hi.Pairwise R)
    (hprehi : ∀ a ∈ pre, ∀ c ∈ hi, R a c)
    (hpreb : ∀ a ∈ pre, R a b2) (hbhi : ∀ c ∈ hi, R b2 c) :
    (pre ++ b2 :: hi).Pairwise R := by
  rw [List.pairwise_append]
  refine ⟨hpre, List.pairwise_cons.mpr ⟨hbhi, hhi⟩, fun a ha c hc => ?_⟩
  rcases List.mem_cons.mp hc with rfl | hc
  · exact hpreb a ha
  · exact hprehi a ha c hc

theorem pairwise_middle_elim {α : Type} {R : α → α → Prop} {pre hi : List α} {b : α}
    (hp : (pre ++ b :: hi).Pairwise R) :
    pre.Pairwise R ∧ hi.Pairwise R ∧ (∀ a ∈ pre, ∀ c ∈ hi, R a c) ∧
    (∀ a ∈ pre, R a b) ∧ (∀ c ∈ hi, R b c) := by
  rw [List.pairwise_append] at hp
  obtain ⟨h1, h2, h3⟩ := hp
  obtain ⟨h4, h5⟩ := List.pairwise_cons.mp h2
  exact ⟨h1, h5, fun a ha c hc => h3 a ha c (by simp [hc]),
    fun a ha => h3 a ha b (by simp), h4⟩

theorem remove_from_buckets_spec (s : IndexState) (hInv : Inv s) (id v : Nat)
    (hfwd : s.forward id = some v) :
    (∀ b ∈ remove_from_buckets s.buckets v id, BucketWF b) ∧
    (remove_from_buckets s.buckets v id).Pairwise
      (fun a b => a.base_value < b.base_value) ∧
    (remove_from_buckets s.buckets v id).Pairwise
      (fun a b => ∀ w ∈ bucketValues a, w < b.base_value) ∧
    (∀ b ∈ remove_from_buckets s.buckets v id, ∀ e ∈ entriesOf b,
      e.2 ≠ id ∧ s.forward e.2 = some (b.base_value + e.1)) ∧
    (∀ x, x ≠ id → occCount (remove_from_buckets s.buckets v id) x =
      occCount s.buckets x) ∧
    occCount (remove_from_buckets s.buckets v id) id = 0 := by
  have hocc1 : occCount s.buckets id = 1 := hInv.occ id v hfwd
  obtain ⟨B, hB, hidB⟩ := exists_mem_of_occCount_pos s.buckets id (by omega)
  obtain ⟨d, hd⟩ := (mem_ids_iff_entries B (hInv.wf B hB).len_eq id).mp hidB
  have hval := hInv.fwdOfEntry B hB (d, id) hd
  rw [hfwd] at hval
  have hvB : B.base_value + d = v := (Option.some.inj hval).symm
  have hvmem : v ∈ bucketValues B := by
    rw [← hvB]
    exact List.mem_map.mpr ⟨d, (List.of_mem_zip hd).1, rfl⟩
  have hfloor := floor_eq_bucket_of_value_mem s.buckets v B hInv.basesSorted hInv.sep hB hvmem
  have hdecomp := cover_decomp s.buckets v B hfloor
  cases hrem : B.remove id with
  | none =>
      exfalso
      exact (remove_eq_none_iff B id).mp hrem hidB
  | some B2 =>
      obtain ⟨hbase2, hlen2, hbmp2, hsort2, hdsub2, d2, hent2, hids2, hdel2⟩ :=
        remove_some_props B id B2 (hInv.wf B hB).len_eq hrem
      -- occurrence bookkeeping over the decomposition
      have hocc_decomp := hdecomp ▸ hocc1
      rw [occCount_append, occCount_cons] at hocc_decomp
      have hcntB : 0 < B.ids.count id := count_pos_iff_mem.mpr hidB
      have hcntB2 : B2.ids.count id = 0 := by
        have := hids2.count_eq id
        simp [List.count_cons] at this
        omega
      have hid_notin_B2 : id ∉ B2.ids := by
        intro hmem
        have := count_pos_iff_mem.mpr hmem
        omega
      have hoccpre : occCount ((s.buckets.takeWhile
          (fun b => b.base_value ≤ v)).dropLast) id = 0 := by omega
      have hocchi : occCount (s.buckets.dropWhile (fun b => b.base_value ≤ v)) id = 0 := by
        omega
      -- pairwise facts of the decomposition
      have hsortedD := hdecomp ▸ hInv.basesSorted
      have hsepD := hdecomp ▸ hInv.sep
      obtain ⟨hs1, hs2, hs3, hs4, hs5⟩ := pairwise_middle_elim hsortedD
      obtain ⟨hp1, hp2, hp3, hp4, hp5⟩ := pairwise_middle_elim hsepD
      -- wf facts
      have hwfD : ∀ b ∈ s.buckets, BucketWF b := hInv.wf
      have hfwdD := hInv.fwdOfEntry
      -- the common goals
      have hcnt_notid : ∀ x, x ≠ id → B2.ids.count x = B.ids.count x := by
        intro x hx
        have := hids2.count_eq x
        simp only [List.count_cons] at this
        have hne : (id == x) = false := by
          simp [Ne.symm hx]
        rw [hne] at this
        simp at this
        omega
      have hmem_pre_or_hi : ∀ b, b ∈ (s.buckets.takeWhile
            (fun x => x.base_value ≤ v)).dropLast ∨
          b ∈ s.buckets.dropWhile (fun x => x.base_value ≤ v) → b ∈ s.buckets := by
        intro b hb
        rw [hdecomp]
        rcases hb with h | h
        · exact List.mem_append.mpr (Or.inl h)
        · exact List.mem_append.mpr (Or.inr (by simp [h]))
      have hB2wf : B2.ids ≠ [] → BucketWF B2 := by
        intro hne
        refine ⟨hsort2 (hInv.wf B hB).sorted, hlen2, ?_, ?_, hne⟩
        · intro dd hdd
          exact (hInv.wf B hB).bound dd (hdsub2 dd hdd)
        · rw [hbmp2, (hInv.wf B hB).bitmap, List.toFinset_eq_of_perm _ _ hids2,
            List.toFinset_cons]
          exact Finset.erase_insert (by simp [hid_notin_B2])
      have hB2vals : ∀ w ∈ bucketValues B2, w ∈ bucketValues B := by
        intro w hw
        obtain ⟨dd, hdd, rfl⟩ := List.mem_map.mp hw
        rw [hbase2]
        exact List.mem_map.mpr ⟨dd, hdsub2 dd hdd, rfl⟩
      -- unfold the operation
      unfold remove_from_buckets
      simp only [hfloor, hrem]
      by_cases hempty : B2.ids.isEmpty
      · rw [if_pos hempty]
        refine ⟨?_, ?_, ?_, ?_, ?_, ?_⟩
        · intro b hb
          exact hwfD b (hmem_pre_or_hi b (List.mem_append.mp hb))
        · exact List.pairwise_append.mpr ⟨hs1, hs2, hs3⟩
        · exact List.pairwise_append.mpr ⟨hp1, hp2, hp3⟩
        · intro b hb e he
          have hbmem := hmem_pre_or_hi b (List.mem_append.mp hb)
          refine ⟨?_, hfwdD b hbmem e he⟩
          intro hcontra
          have hidin : id ∈ b.ids := by
            rw [← hcontra]
            exact (List.of_mem_zip he).2
          have hcnt := count_pos_iff_mem.mpr hidin
          rcases List.mem_append.mp hb with h | h
          · have : occCount ((s.buckets.takeWhile
                (fun x => x.base_value ≤ v)).dropLast) id = 0 := hoccpre
            have := occCount_pos_of_mem h hidin
            omega
          · have := occCount_pos_of_mem h hidin
            omega
        · intro x hx
          conv_rhs => rw [hdecomp]
          rw [occCount_append, occCount_append, occCount_cons]
          have hBcnt : B.ids.count x = B2.ids.count x := (hcnt_notid x hx).symm
          have hB2empty : B2.ids = [] := List.isEmpty_iff.mp hempty
          rw [hB2empty] at hBcnt
          simp only [List.count_nil] at hBcnt
          omega
        · rw [occCount_append]
          omega
      · rw [if_neg hempty]
        have hne : B2.ids ≠ [] := by
          intro h
          rw [h] at hempty
          simp at hempty
        refine ⟨?_, ?_, ?_, ?_, ?_, ?_⟩
        · intro b hb
          rcases List.mem_append.mp hb with h | h
          · exact hwfD b (hmem_pre_or_hi b (Or.inl h))
          · rcases List.mem_cons.mp h with rfl | h
            · exact hB2wf hne
            · exact hwfD b (hmem_pre_or_hi b (Or.inr h))
        · refine pairwise_middle_intro hs1 hs2 hs3 ?_ ?_
          · intro a ha
            rw [hbase2]
            exact hs4 a ha
          · intro c hc
            rw [hbase2]
            exact hs5 c hc
        · refine pairwise_middle_intro hp1 hp2 hp3 ?_ ?_
          · intro a ha w hw
            rw [hbase2]
            exact hp4 a ha w hw
          · intro c hc w hw
            exact hp5 c hc w (hB2vals w hw)
        · intro b hb e he
          rcases List.mem_append.mp hb with h | h
          · refine ⟨?_, hfwdD b (hmem_pre_or_hi b (Or.inl h)) e he⟩
            intro hcontra
            have hidin : id ∈ b.ids := by
              rw [← hcontra]
              exact (List.of_mem_zip he).2
            have := occCount_pos_of_mem h hidin
            omega
          · rcases List.mem_cons.mp h with rfl | h
            · have heB : e ∈ entriesOf B := hent2.mem_iff.mpr (by simp [he])
              refine ⟨?_, ?_⟩
              · intro hcontra
                apply hid_notin_B2
                rw [← hcontra]
                exact (List.of_mem_zip he).2
              · rw [hbase2]
                exact hfwdD B hB e heB
            · refine ⟨?_, hfwdD b (hmem_pre_or_hi b (Or.inr h)) e he⟩
              intro hcontra
              have hidin : id ∈ b.ids := by
                rw [← hcontra]
                exact (List.of_mem_zip he).2
              have := occCount_pos_of_mem h hidin
              omega
        · intro x hx
          conv_rhs => rw [hdecomp]
          rw [occCount_append, occCount_append, occCount_cons, occCount_cons]
          have := hcnt_notid x hx
          omega
        · rw [occCount_append, occCount_cons]
          omega

/-! ## The split: building the right bucket by repeated add -/

theorem foldl_add_spec (base dmid : Nat) (ps : List (Nat × Nat)) (rb0 : Bucket)
    (hbase0 : rb0.base_value = base + dmid)
    (hlen0 : rb0.deltas.length = rb0.ids.length)
    (hsort0 : List.Chain' (· ≤ ·) rb0.deltas)
    (hbmp0 : rb0.summary_bitmap = rb0.ids.toFinset)
    (hbound0 : ∀ d ∈ rb0.deltas, d ≤ MAX_DELTA)
    (hps_pair : List.Chain' (· ≤ ·) (ps.map Prod.fst))
    (hge : ∀ p ∈ ps, dmid ≤ p.1)
    (hbound : ∀ p ∈ ps, p.1 ≤ MAX_DELTA)
    (hacc : ∀ d ∈ rb0.deltas, ∀ p ∈ ps, d ≤ p.1 - dmid) :
    ∃ rb, ps.foldlM (fun rb e => rb.add (base + e.1) e.2) rb0 = .ok rb ∧
      rb.base_value = base + dmid ∧
      rb.deltas.length = rb.ids.length ∧
      (entriesOf rb).Perm (entriesOf rb0 ++ ps.map (fun p => (p.1 - dmid, p.2))) ∧
      rb.ids.Perm (rb0.ids ++ ps.map Prod.snd) ∧
      rb.deltas.Perm (rb0.deltas ++ ps.map (fun p => p.1 - dmid)) ∧
      List.Chain' (· ≤ ·) rb.deltas ∧
      (∀ d ∈ rb.deltas, d ≤ MAX_DELTA) ∧
      rb.summary_bitmap = rb.ids.toFinset := by
  induction ps generalizing rb0 with
  | nil =>
      refine ⟨rb0, rfl, hbase0, hlen0, by simp [List.Perm.refl], by simp [List.Perm.refl],
        by simp [List.Perm.refl], hsort0, hbound0, hbmp0⟩
  | cons p ps2 ih =>
      have hvge : rb0.base_value ≤ base + p.1 := by
        have := hge p (by simp)
        omega
      have hdelta_eq : (base + p.1) - rb0.base_value = p.1 - dmid := by
        omega
      have hvd : (base + p.1) - rb0.base_value ≤ MAX_DELTA := by
        have := hbound p (by simp)
        omega
      have hadd := add_eq_ok rb0 (base + p.1) p.2 hvge hvd
      set rb1 : Bucket :=
        ⟨rb0.base_value,
         rb0.deltas.insertIdx (lowerBound rb0.deltas ((base + p.1) - rb0.base_value))
           ((base + p.1) - rb0.base_value),
         rb0.ids.insertIdx (lowerBound rb0.deltas ((base + p.1) - rb0.base_value)) p.2,
         insert p.2 rb0.summary_bitmap⟩ with hrb1
      obtain ⟨hb1base, hb1len, hb1ent, hb1ids, hb1bmp, hb1sort, hb1del, _, _⟩ :=
        add_ok_props rb0 (base + p.1) p.2 rb1 hlen0 hadd
      have hp_le : ∀ q ∈ ps2, p.1 ≤ q.1 := by
        have hpw := List.chain'_iff_pairwise.mp hps_pair
        simp only [List.map_cons] at hpw
        intro q hq
        exact (List.pairwise_cons.mp hpw).1 q.1 (List.mem_map.mpr ⟨q, hq, rfl⟩)
      have ihres := ih rb1 (by rw [hb1base, hbase0]) hb1len (hb1sort hsort0)
        (by
          rw [hb1bmp, hbmp0, List.toFinset_eq_of_perm _ _ hb1ids]
          simp)
        (by
          intro d hd
          rcases List.mem_cons.mp (hb1del.mem_iff.mp hd) with rfl | h
          · omega
          · exact hbound0 d h)
        (by
          cases hps : ps2.map Prod.fst with
          | nil => simp [hps]
          | cons a t =>
              have := hps_pair
              simp only [List.map_cons] at this
              rw [hps] at this
              exact this.tail)
        (fun q hq => hge q (by simp [hq]))
        (fun q hq => hbound q (by simp [hq]))
        (by
          intro d hd q hq
          rcases List.mem_cons.mp (hb1del.mem_iff.mp hd) with rfl | h
          · have h1 := hp_le q hq
            have h2 := hge p (by simp)
            omega
          · exact hacc d h (q) (by simp [hq]))
      obtain ⟨rb, hfold, hrbase, hrlen, hrent, hrids, hrdel, hrsort, hrbound, hrbmp⟩ := ihres
      refine ⟨rb, ?_, hrbase, hrlen, ?_, ?_, ?_, hrsort, hrbound, hrbmp⟩
      · rw [List.foldlM_cons, hadd]
        simpa using hfold
      · refine hrent.trans ?_
        have h1 : (entriesOf rb1).Perm
            (((base + p.1) - rb0.base_value, p.2) :: entriesOf rb0) := hb1ent
        rw [hdelta_eq] at h1
        refine (List.Perm.append_right _ h1).trans ?_
        simp only [List.map_cons, List.cons_append, hdelta_eq]
        exact List.perm_middle.symm
      · refine hrids.trans ?_
        refine (List.Perm.append_right _ hb1ids).trans ?_
        simp only [List.map_cons, List.cons_append]
        exact List.perm_middle.symm
      · refine hrdel.trans ?_
        have h1 : rb1.deltas.Perm (((base + p.1) - rb0.base_value) :: rb0.deltas) := hb1del
        rw [hdelta_eq] at h1
        refine (List.Perm.append_right _ h1).trans ?_
        simp only [List.map_cons, List.cons_append, hdelta_eq]
        exact List.perm_middle.symm

/-! ## Probe characterization -/

theorem probeRightAux_ge (ds : List Nat) (fuel : Nat) :
    ∀ i, i ≤ probeRightAux ds fuel i := by
  induction fuel with
  | zero => intro i; unfold probeRightAux; omega
  | succ f ih =>
      intro i
      unfold probeRightAux
      split_ifs with h
      · exact le_trans (by omega) (ih (i + 1))
      · omega

theorem probeRightAux_le (ds : List Nat) (fuel : Nat) :
    ∀ i, i ≤ ds.length → probeRightAux ds fuel i ≤ ds.length := by
  induction fuel with
  | zero => intro i hi; unfold probeRightAux; omega
  | succ f ih =>
      intro i hi
      unfold probeRightAux
      split_ifs with h
      · exact ih (i + 1) (by omega)
      · omega

theorem probeRightAux_stop (ds : List Nat) (fuel : Nat) :
    ∀ i, ds.length - i ≤ fuel →
    ¬ (probeRightAux ds fuel i < ds.length ∧ 0 < probeRightAux ds fuel i ∧
       ds.getD (probeRightAux ds fuel i) 0 = ds.getD (probeRightAux ds fuel i - 1) 0) := by
  induction fuel with
  | zero =>
      intro i hfuel
      unfold probeRightAux
      rintro ⟨h1, _, _⟩
      omega
  | succ f ih =>
      intro i hfuel
      unfold probeRightAux
      split_ifs with h
      · exact ih (i + 1) (by omega)
      · exact h

theorem probeLeftAux_le (ds : List Nat) (fuel : Nat) :
    ∀ i, probeLeftAux ds fuel i ≤ i := by
  induction fuel with
  | zero => intro i; unfold probeLeftAux; omega
  | succ f ih =>
      intro i
      unfold probeLeftAux
      split_ifs with h
      · exact le_trans (ih (i - 1)) (by omega)
      · omega

theorem probeLeftAux_stop (ds : List Nat) (fuel : Nat) :
    ∀ i, i ≤ fuel →
    ¬ (0 < probeLeftAux ds fuel i ∧
       ds.getD (probeLeftAux ds fuel i) 0 = ds.getD (probeLeftAux ds fuel i - 1) 0) := by
  induction fuel with
  | zero =>
      intro i hfuel
      unfold probeLeftAux
      rintro ⟨h1, _⟩
      omega
  | succ f ih =>
      intro i hfuel
      unfold probeLeftAux
      split_ifs with h
      · exact ih (i - 1) (by omega)
      · exact h

/-- In the split branch the chosen cut index is interior and sits on a
strict value boundary. -/
theorem splitMid_cut (b : Bucket) (hlen : b.deltas.length = b.ids.length)
    (hfull : MAX_SIZE ≤ b.ids.length) (hmid : splitMid b ≠ b.deltas.length) :
    0 < splitMid b ∧ splitMid b < b.deltas.length ∧
    b.deltas.getD (splitMid b) 0 ≠ b.deltas.getD (splitMid b - 1) 0 := by
  have hmid0pos : 0 < b.ids.length / 2 := by
    unfold MAX_SIZE at hfull
    omega
  have hmid0le : b.ids.length / 2 ≤ b.deltas.length := by omega
  have hmid0lt : b.ids.length / 2 < b.deltas.length := by omega
  unfold splitMid at *
  simp only [] at hmid ⊢
  split_ifs at * with h1 h2
  · -- probeRight found the cut
    have hge := probeRightAux_ge b.deltas (b.deltas.length - b.ids.length / 2)
      (b.ids.length / 2)
    have hstop := probeRightAux_stop b.deltas (b.deltas.length - b.ids.length / 2)
      (b.ids.length / 2) (by omega)
    unfold probeRight at *
    refine ⟨by omega, h1, ?_⟩
    intro hcontra
    exact hstop ⟨h1, by omega, hcontra⟩
  · -- probeLeft found the cut
    have hle := probeLeftAux_le b.deltas (b.ids.length / 2) (b.ids.length / 2)
    have hstop := probeLeftAux_stop b.deltas (b.ids.length / 2) (b.ids.length / 2)
      (le_refl _)
    unfold probeLeft at *
    refine ⟨h2, by omega, ?_⟩
    intro hcontra
    exact hstop ⟨h2, hcontra⟩
  · exact absurd rfl hmid

theorem getD_eq_of_all_eq (ds : List Nat) (c : Nat) (hc : ∀ d ∈ ds, d = c)
    (i : Nat) (hi : i < ds.length) : ds.getD i 0 = c := by
  rw [List.getD_eq_getElem?_getD, List.getElem?_eq_getElem hi]
  exact hc _ (List.getElem_mem hi)

theorem probeRightAux_all_eq (ds : List Nat) (c : Nat) (hc : ∀ d ∈ ds, d = c)
    (fuel : Nat) : ∀ i, 0 < i → i + fuel = ds.length →
    probeRightAux ds fuel i = ds.length := by
  induction fuel with
  | zero => intro i h0 hf; unfold probeRightAux; omega
  | succ f ih =>
      intro i h0 hf
      unfold probeRightAux
      rw [if_pos ⟨by omega, h0, by
        rw [getD_eq_of_all_eq ds c hc i (by omega),
            getD_eq_of_all_eq ds c hc (i - 1) (by omega)]⟩]
      exact ih (i + 1) (by omega) (by omega)

theorem probeLeftAux_all_eq (ds : List Nat) (c : Nat) (hc : ∀ d ∈ ds, d = c)
    (fuel : Nat) : ∀ i, i < ds.length → i ≤ fuel →
    probeLeftAux ds fuel i = 0 := by
  induction fuel with
  | zero => intro i hi hf; unfold probeLeftAux; omega
  | succ f ih =>
      intro i hi hf
      unfold probeLeftAux
      by_cases h0 : 0 < i
      · rw [if_pos ⟨h0, by
          rw [getD_eq_of_all_eq ds c hc i hi,
              getD_eq_of_all_eq ds c hc (i - 1) (by omega)]⟩]
        exact ih (i - 1) (by omega) (by omega)
      · rw [if_neg (by omega)]
        omega

/-- A saturated single-value bucket yields no cut: the split falls back
to appending into the oversized bucket. -/
theorem splitMid_all_eq (b : Bucket) (c : Nat) (hc : ∀ d ∈ b.deltas, d = c)
    (hlen : b.deltas.length = b.ids.length) (hfull : MAX_SIZE ≤ b.ids.length) :
    splitMid b = b.deltas.length := by
  have hmid0pos : 0 < b.ids.length / 2 := by
    unfold MAX_SIZE at hfull
    omega
  have hmid0lt : b.ids.length / 2 < b.deltas.length := by omega
  unfold splitMid
  simp only []
  have hpr : probeRight b.deltas (b.ids.length / 2) = b.deltas.length := by
    unfold probeRight
    exact probeRightAux_all_eq b.deltas c hc _ _ hmid0pos (by omega)
  have hpl : probeLeft b.deltas (b.ids.length / 2) = 0 := by
    unfold probeLeft
    exact probeLeftAux_all_eq b.deltas c hc _ _ hmid0lt (le_refl _)
  rw [hpr, hpl]
  simp

/-! ## putBucket and sorted segment lemmas -/

theorem putBucket_append (nb : Bucket) (pre hi : List Bucket)
    (hpre : ∀ a ∈ pre, a.base_value < nb.base_value)
    (hhi : ∀ c ∈ hi, nb.base_value < c.base_value) :
    putBucket nb (pre ++ hi) = pre ++ nb :: hi := by
  induction pre with
  | nil =>
      cases hi with
      | nil => rfl
      | cons h t =>
          simp only [List.nil_append, putBucket]
          rw [if_pos (hhi h (by simp))]
  | cons a pre2 ih =>
      simp only [List.cons_append, putBucket]
      have ha := hpre a (by simp)
      rw [if_neg (by omega), if_neg (by omega)]
      rw [List.append_eq]
      rw [ih (fun x hx => hpre x (by simp [hx]))]

theorem mem_take_le_getD (ds : List Nat) (hs : List.Chain' (· ≤ ·) ds) (mid : Nat)
    (h0 : 0 < mid) (hle : mid ≤ ds.length) :
    ∀ d ∈ ds.take mid, d ≤ ds.getD (mid - 1) 0 := by
  intro d hd
  obtain ⟨j, hj, hget⟩ := List.mem_iff_getElem.mp hd
  rw [List.length_take] at hj
  have hjlt : j < mid := by omega
  have hjlen : j < ds.length := by omega
  have hjt : j < (ds.take mid).length := by
    rw [List.length_take]
    omega
  have hgetj : (ds.take mid)[j] = ds[j] := List.getElem_take _
  have hpw := List.chain'_iff_pairwise.mp hs
  rw [List.getD_eq_getElem?_getD,
    List.getElem?_eq_getElem (show mid - 1 < ds.length by omega)]
  simp only [Option.getD_some]
  rcases Nat.lt_or_ge j (mid - 1) with hlt2 | hge2
  · rw [← hget, hgetj]
    exact List.pairwise_iff_getElem.mp hpw j (mid - 1) hjlen (by omega) hlt2
  · have hj_eq : j = mid - 1 := by omega
    subst hj_eq
    rw [← hget, hgetj]

theorem mem_drop_ge_getD (ds : List Nat) (hs : List.Chain' (· ≤ ·) ds) (mid : Nat)
    (hmid : mid < ds.length) :
    ∀ d ∈ ds.drop mid, ds.getD mid 0 ≤ d := by
  intro d hd
  obtain ⟨j, hj, hget⟩ := List.mem_iff_getElem.mp hd
  rw [List.length_drop] at hj
  have hjd : j < (ds.drop mid).length := by
    rw [List.length_drop]
    omega
  have hgetj : (ds.drop mid)[j] = ds[mid + j] := List.getElem_drop _
  have hpw := List.chain'_iff_pairwise.mp hs
  rw [List.getD_eq_getElem?_getD, List.getElem?_eq_getElem hmid]
  simp only [Option.getD_some]
  rcases Nat.eq_zero_or_pos j with rfl | hj0
  · rw [← hget, hgetj]
    simp
  · have := List.pairwise_iff_getElem.mp hpw mid (mid + j) hmid (by omega) (by omega)
    rw [← hget, hgetj]
    exact this

theorem pairwise_two_middle_intro {α : Type} {R : α → α → Prop} {pre hi : List α} {x y : α}
    (hpre : pre.Pairwise R) (hhi : hi.Pairwise R)
    (hprehi : ∀ a ∈ pre, ∀ c ∈ hi, R a c)
    (hprex : ∀ a ∈ pre, R a x) (hprey : ∀ a ∈ pre, R a y)
    (hxy : R x y) (hxhi : ∀ c ∈ hi, R x c) (hyhi : ∀ c ∈ hi, R y c) :
    (pre ++ x :: y :: hi).Pairwise R := by
  rw [List.pairwise_append]
  refine ⟨hpre, ?_, ?_⟩
  · rw [List.pairwise_cons]
    refine ⟨?_, List.pairwise_cons.mpr ⟨hyhi, hhi⟩⟩
    intro c hc
    rcases List.mem_cons.mp hc with rfl | hc
    · exact hxy
    · exact hxhi c hc
  · intro a ha c hc
    rcases List.mem_cons.mp hc with rfl | hc
    · exact hprex a ha
    rcases List.mem_cons.mp hc with rfl | hc
    · exact hprey a ha
    · exact hprehi a ha c hc

theorem replace_covering_spec (fwd : Nat → Option Nat) (bs : List Bucket) (value id : Nat)
    (b b2 : Bucket)
    (hwf : ∀ c ∈ bs, BucketWF c)
    (hsorted : bs.Pairwise (fun a c => a.base_value < c.base_value))
    (hsep : bs.Pairwise (fun a c => ∀ w ∈ bucketValues a, w < c.base_value))
    (hfwdE : ∀ c ∈ bs, ∀ e ∈ entriesOf c, e.2 ≠ id ∧ fwd e.2 = some (c.base_value + e.1))
    (hfid : fwd id = some value)
    (hlast : (bs.takeWhile (fun x => x.base_value ≤ value)).getLast? = some b)
    (hwf2 : BucketWF b2)
    (hbase2 : b2.base_value = b.base_value)
    (hvals2 : (bucketValues b2).Perm (value :: bucketValues b))
    (hent2 : (entriesOf b2).Perm ((value - b.base_value, id) :: entriesOf b))
    (hids2 : b2.ids.Perm (id :: b.ids))
    (hble : b.base_value ≤ value) :
    (∀ c ∈ (bs.takeWhile (fun x => x.base_value ≤ value)).dropLast ++ b2 ::
        bs.dropWhile (fun x => x.base_value ≤ value), BucketWF c) ∧
    ((bs.takeWhile (fun x => x.base_value ≤ value)).dropLast ++ b2 ::
        bs.dropWhile (fun x => x.base_value ≤ value)).Pairwise
      (fun a c => a.base_value < c.base_value) ∧
    ((bs.takeWhile (fun x => x.base_value ≤ value)).dropLast ++ b2 ::
        bs.dropWhile (fun x => x.base_value ≤ value)).Pairwise
      (fun a c => ∀ w ∈ bucketValues a, w < c.base_value) ∧
    (∀ c ∈ (bs.takeWhile (fun x => x.base_value ≤ value)).dropLast ++ b2 ::
        bs.dropWhile (fun x => x.base_value ≤ value), ∀ e ∈ entriesOf c,
      fwd e.2 = some (c.base_value + e.1)) ∧
    (∀ x, occCount ((bs.takeWhile (fun x => x.base_value ≤ value)).dropLast ++ b2 ::
        bs.dropWhile (fun x => x.base_value ≤ value)) x =
      occCount bs x + if x = id then 1 else 0) := by
  have hdecomp := cover_decomp bs value b hlast
  have hb : b ∈ bs := by
    rw [hdecomp]
    simp
  have hsortedD := hdecomp ▸ hsorted
  have hsepD := hdecomp ▸ hsep
  obtain ⟨hs1, hs2, hs3, hs4, hs5⟩ := pairwise_middle_elim hsortedD
  obtain ⟨hp1, hp2, hp3, hp4, hp5⟩ := pairwise_middle_elim hsepD
  have hhi_gt := dropWhile_base_gt bs value hsorted
  have hmem_of : ∀ c, c ∈ (bs.takeWhile (fun x => x.base_value ≤ value)).dropLast ∨
      c ∈ bs.dropWhile (fun x => x.base_value ≤ value) → c ∈ bs := by
    intro c hc
    rw [hdecomp]
    rcases hc with h | h
    · exact List.mem_append.mpr (Or.inl h)
    · exact List.mem_append.mpr (Or.inr (by simp [h]))
  refine ⟨?_, ?_, ?_, ?_, ?_⟩
  · intro c hc
    rcases List.mem_append.mp hc with h | h
    · exact hwf c (hmem_of c (Or.inl h))
    · rcases List.mem_cons.mp h with rfl | h
      · exact hwf2
      · exact hwf c (hmem_of c (Or.inr h))
  · refine pairwise_middle_intro hs1 hs2 hs3 ?_ ?_
    · intro a ha
      rw [hbase2]
      exact hs4 a ha
    · intro c hc
      rw [hbase2]
      exact hs5 c hc
  · refine pairwise_middle_intro hp1 hp2 hp3 ?_ ?_
    · intro a ha w hw
      rw [hbase2]
      exact hp4 a ha w hw
    · intro c hc w hw
      rcases List.mem_cons.mp (hvals2.mem_iff.mp hw) with rfl | hw2
      · exact hhi_gt c hc
      · exact hp5 c hc w hw2
  · intro c hc e he
    rcases List.mem_append.mp hc with h | h
    · exact (hfwdE c (hmem_of c (Or.inl h)) e he).2
    · rcases List.mem_cons.mp h with rfl | h
      · rcases List.mem_cons.mp (hent2.mem_iff.mp he) with rfl | he2
        · rw [hbase2, Nat.add_sub_cancel' hble]
          simpa using hfid
        · rw [hbase2]
          exact (hfwdE b hb e he2).2
      · exact (hfwdE c (hmem_of c (Or.inr h)) e he).2
  · intro x
    conv_rhs => rw [hdecomp]
    rw [occCount_append, occCount_append, occCount_cons, occCount_cons]
    have hcnt := hids2.count_eq x
    rw [List.count_cons] at hcnt
    by_cases hx : x = id
    · subst hx
      simp at hcnt
      rw [if_pos rfl]
      omega
    · simp [Ne.symm hx] at hcnt
      rw [if_neg hx]
      omega

theorem create_bucket_spec (fwd : Nat → Option Nat) (bs : List Bucket) (value id : Nat)
    (hwf : ∀ c ∈ bs, BucketWF c)
    (hsorted : bs.Pairwise (fun a c => a.base_value < c.base_value))
    (hsep : bs.Pairwise (fun a c => ∀ w ∈ bucketValues a, w < c.base_value))
    (hfwdE : ∀ c ∈ bs, ∀ e ∈ entriesOf c, e.2 ≠ id ∧ fwd e.2 = some (c.base_value + e.1))
    (hfid : fwd id = some value)
    (hlo_lt : ∀ a ∈ bs.takeWhile (fun x => x.base_value ≤ value), a.base_value < value)
    (hlo_vals : ∀ a ∈ bs.takeWhile (fun x => x.base_value ≤ value),
      ∀ w ∈ bucketValues a, w < value) :
    putBucket ⟨value, [0], [id], insert id ∅⟩ bs =
      bs.takeWhile (fun x => x.base_value ≤ value) ++
        (⟨value, [0], [id], insert id ∅⟩ : Bucket) ::
        bs.dropWhile (fun x => x.base_value ≤ value) ∧
    (∀ c ∈ bs.takeWhile (fun x => x.base_value ≤ value) ++
        (⟨value, [0], [id], insert id ∅⟩ : Bucket) ::
        bs.dropWhile (fun x => x.base_value ≤ value), BucketWF c) ∧
    (bs.takeWhile (fun x => x.base_value ≤ value) ++
        (⟨value, [0], [id], insert id ∅⟩ : Bucket) ::
        bs.dropWhile (fun x => x.base_value ≤ value)).Pairwise
      (fun a c => a.base_value < c.base_value) ∧
    (bs.takeWhile (fun x => x.base_value ≤ value) ++
        (⟨value, [0], [id], insert id ∅⟩ : Bucket) ::
        bs.dropWhile (fun x => x.base_value ≤ value)).Pairwise
      (fun a c => ∀ w ∈ bucketValues a, w < c.base_value) ∧
    (∀ c ∈ bs.takeWhile (fun x => x.base_value ≤ value) ++
        (⟨value, [0], [id], insert id ∅⟩ : Bucket) ::
        bs.dropWhile (fun x => x.base_value ≤ value), ∀ e ∈ entriesOf c,
      fwd e.2 = some (c.base_value + e.1)) ∧
    (∀ x, occCount (bs.takeWhile (fun x => x.base_value ≤ value) ++
        (⟨value, [0], [id], insert id ∅⟩ : Bucket) ::
        bs.dropWhile (fun x => x.base_value ≤ value)) x =
      occCount bs x + if x = id then 1 else 0) := by
  have hsplit := List.takeWhile_append_dropWhile
    (fun x => decide (x.base_value ≤ value)) bs
  have hhi_gt := dropWhile_base_gt bs value hsorted
  have hmem_of : ∀ c, c ∈ bs.takeWhile (fun x => x.base_value ≤ value) ∨
      c ∈ bs.dropWhile (fun x => x.base_value ≤ value) → c ∈ bs := by
    intro c hc
    rcases hc with h | h
    · exact (List.takeWhile_sublist _).mem h
    · exact (List.dropWhile_sublist _).mem h
  have hlo_pw : (bs.takeWhile (fun x => x.base_value ≤ value)).Pairwise
      (fun a c => a.base_value < c.base_value) :=
    List.Pairwise.sublist (List.takeWhile_sublist _) hsorted
  have hhi_pw : (bs.dropWhile (fun x => x.base_value ≤ value)).Pairwise
      (fun a c => a.base_value < c.base_value) :=
    List.Pairwise.sublist (List.dropWhile_sublist _) hsorted
  have hlo_pw2 : (bs.takeWhile (fun x => x.base_value ≤ value)).Pairwise
      (fun a c => ∀ w ∈ bucketValues a, w < c.base_value) :=
    List.Pairwise.sublist (List.takeWhile_sublist _) hsep
  have hhi_pw2 : (bs.dropWhile (fun x => x.base_value ≤ value)).Pairwise
      (fun a c => ∀ w ∈ bucketValues a, w < c.base_value) :=
    List.Pairwise.sublist (List.dropWhile_sublist _) hsep
  have hcross : ∀ a ∈ bs.takeWhile (fun x => x.base_value ≤ value),
      ∀ c ∈ bs.dropWhile (fun x => x.base_value ≤ value),
      a.base_value < c.base_value := by
    intro a ha c hc
    have h1 := takeWhile_base_le bs value a ha
    have h2 := hhi_gt c hc
    omega
  have hcross2 : ∀ a ∈ bs.takeWhile (fun x => x.base_value ≤ value),
      ∀ c ∈ bs.dropWhile (fun x => x.base_value ≤ value),
      ∀ w ∈ bucketValues a, w < c.base_value := by
    intro a ha c hc w hw
    have h1 := hlo_vals a ha w hw
    have h2 := hhi_gt c hc
    omega
  refine ⟨?_, ?_, ?_, ?_, ?_, ?_⟩
  · conv_lhs => rw [show bs = bs.takeWhile (fun x => x.base_value ≤ value) ++
      bs.dropWhile (fun x => x.base_value ≤ value) from hsplit.symm]
    exact putBucket_append _ _ _ hlo_lt hhi_gt
  · intro c hc
    rcases List.mem_append.mp hc with h | h
    · exact hwf c (hmem_of c (Or.inl h))
    · rcases List.mem_cons.mp h with rfl | h
      · exact ⟨by simp, by simp, by simp [MAX_DELTA], by simp, by simp⟩
      · exact hwf c (hmem_of c (Or.inr h))
  · exact pairwise_middle_intro hlo_pw hhi_pw hcross hlo_lt hhi_gt
  · refine pairwise_middle_intro hlo_pw2 hhi_pw2 hcross2 hlo_vals ?_
    intro c hc w hw
    simp only [bucketValues, List.map_cons, List.map_nil] at hw
    rcases List.mem_cons.mp hw with rfl | hw2
    · have := hhi_gt c hc
      omega
    · cases hw2
  · intro c hc e he
    rcases List.mem_append.mp hc with h | h
    · exact (hfwdE c (hmem_of c (Or.inl h)) e he).2
    · rcases List.mem_cons.mp h with rfl | h
      · simp only [entriesOf, List.zip_cons_cons, List.zip_nil_right] at he
        rcases List.mem_cons.mp he with rfl | he2
        · simpa using hfid
        · cases he2
      · exact (hfwdE c (hmem_of c (Or.inr h)) e he).2
  · intro x
    conv_rhs => rw [show bs = bs.takeWhile (fun x => x.base_value ≤ value) ++
      bs.dropWhile (fun x => x.base_value ≤ value) from hsplit.symm]
    rw [occCount_append, occCount_append, occCount_cons]
    by_cases hx : x = id
    · have h1 : List.count x [id] = 1 := by
        rw [hx]
        simp
      rw [if_pos hx, h1]
      omega
    · have h1 : List.count x [id] = 0 := by
        simp [List.count_cons, Ne.symm hx]
      rw [if_neg hx, h1]
      omega

theorem zip_take_take (l1 l2 : List Nat) (n : Nat) :
    (l1.take n).zip (l2.take n) = (l1.zip l2).take n := by
  induction l1 generalizing l2 n with
  | nil => simp
  | cons a t ih =>
      cases l2 with
      | nil => simp
      | cons b t2 =>
          cases n with
          | zero => simp
          | succ n => simp [List.zip_cons_cons, ih]

theorem zip_drop_drop (l1 l2 : List Nat) (n : Nat) :
    (l1.drop n).zip (l2.drop n) = (l1.zip l2).drop n := by
  induction l1 generalizing l2 n with
  | nil => simp
  | cons a t ih =>
      cases l2 with
      | nil => simp
      | cons b t2 =>
          cases n with
          | zero => simp
          | succ n => simp [List.zip_cons_cons, ih]

/-- Full behaviour of the saturated-bucket split with a value-boundary
cut: shape of the store, contents of both sides, and the invariant
payload. -/
theorem split_case_spec (fwd : Nat → Option Nat) (bs : List Bucket) (value id : Nat)
    (b : Bucket)
    (hwf : ∀ c ∈ bs, BucketWF c)
    (hsorted : bs.Pairwise (fun a c => a.base_value < c.base_value))
    (hsep : bs.Pairwise (fun a c => ∀ w ∈ bucketValues a, w < c.base_value))
    (hfwdE : ∀ c ∈ bs, ∀ e ∈ entriesOf c, e.2 ≠ id ∧ fwd e.2 = some (c.base_value + e.1))
    (hfid : fwd id = some value)
    (hlast : (bs.takeWhile (fun x => x.base_value ≤ value)).getLast? = some b)
    (hdle : value - b.base_value ≤ MAX_DELTA)
    (hfull : MAX_SIZE ≤ b.ids.length)
    (hmidne : splitMid b ≠ b.deltas.length) :
    ∃ left2 right2,
      add_to_buckets bs value id = .ok
        ((bs.takeWhile (fun x => x.base_value ≤ value)).dropLast ++ left2 :: right2 ::
          bs.dropWhile (fun x => x.base_value ≤ value)) ∧
      left2.base_value = b.base_value ∧
      right2.base_value = b.base_value + b.deltas.getD (splitMid b) 0 ∧
      List.Chain' (· ≤ ·) left2.deltas ∧
      List.Chain' (· ≤ ·) right2.deltas ∧
      left2.summary_bitmap = left2.ids.toFinset ∧
      right2.summary_bitmap = right2.ids.toFinset ∧
      (∀ w ∈ bucketValues left2, w < right2.base_value) ∧
      (if value < b.base_value + b.deltas.getD (splitMid b) 0 then
        (entriesOf left2).Perm ((value - b.base_value, id) ::
          (b.deltas.take (splitMid b)).zip (b.ids.take (splitMid b))) ∧
        (entriesOf right2).Perm (((b.deltas.drop (splitMid b)).zip
          (b.ids.drop (splitMid b))).map
            (fun p => (p.1 - b.deltas.getD (splitMid b) 0, p.2)))
      else
        entriesOf left2 = (b.deltas.take (splitMid b)).zip (b.ids.take (splitMid b)) ∧
        (entriesOf right2).Perm
          ((value - (b.base_value + b.deltas.getD (splitMid b) 0), id) ::
            ((b.deltas.drop (splitMid b)).zip (b.ids.drop (splitMid b))).map
              (fun p => (p.1 - b.deltas.getD (splitMid b) 0, p.2)))) ∧
      (∀ c ∈ (bs.takeWhile (fun x => x.base_value ≤ value)).dropLast ++ left2 :: right2 ::
          bs.dropWhile (fun x => x.base_value ≤ value), BucketWF c) ∧
      ((bs.takeWhile (fun x => x.base_value ≤ value)).dropLast ++ left2 :: right2 ::
          bs.dropWhile (fun x => x.base_value ≤ value)).Pairwise
        (fun a c => a.base_value < c.base_value) ∧
      ((bs.takeWhile (fun x => x.base_value ≤ value)).dropLast ++ left2 :: right2 ::
          bs.dropWhile (fun x => x.base_value ≤ value)).Pairwise
        (fun a c => ∀ w ∈ bucketValues a, w < c.base_value) ∧
      (∀ c ∈ (bs.takeWhile (fun x => x.base_value ≤ value)).dropLast ++ left2 :: right2 ::
          bs.dropWhile (fun x => x.base_value ≤ value), ∀ e ∈ entriesOf c,
        fwd e.2 = some (c.base_value + e.1)) ∧
      (∀ x, occCount ((bs.takeWhile (fun x => x.base_value ≤ value)).dropLast ++
          left2 :: right2 :: bs.dropWhile (fun x => x.base_value ≤ value)) x =
        occCount bs x + if x = id then 1 else 0) := by
  have hdecomp := cover_decomp bs value b hlast
  have hb : b ∈ bs := by
    rw [hdecomp]
    simp
  have hwfb := hwf b hb
  have hble : b.base_value ≤ value :=
    takeWhile_base_le bs value b (mem_of_getLast?_eq_some hlast)
  obtain ⟨hmid0, hmidlt, hmidne2⟩ := splitMid_cut b hwfb.len_eq hfull hmidne
  have hlen := hwfb.len_eq
  have hsortb := hwfb.sorted
  have hpwb := List.chain'_iff_pairwise.mp hsortb
  -- the boundary is strict
  have hprev_lt : b.deltas.getD (splitMid b - 1) 0 < b.deltas.getD (splitMid b) 0 := by
    have hle2 : b.deltas.getD (splitMid b - 1) 0 ≤ b.deltas.getD (splitMid b) 0 := by
      rw [List.getD_eq_getElem?_getD, List.getD_eq_getElem?_getD,
        List.getElem?_eq_getElem (show splitMid b - 1 < b.deltas.length by omega),
        List.getElem?_eq_getElem hmidlt]
      simp only [Option.getD_some]
      rcases Nat.eq_zero_or_pos (splitMid b) with h0 | h0
      · omega
      · exact List.pairwise_iff_getElem.mp hpwb (splitMid b - 1) (splitMid b)
          (by omega) hmidlt (by omega)
    omega
  have hdmid_pos : 0 < b.deltas.getD (splitMid b) 0 := by omega
  have hdmid_mem : b.deltas.getD (splitMid b) 0 ∈ b.deltas := by
    rw [List.getD_eq_getElem?_getD, List.getElem?_eq_getElem hmidlt]
    exact List.getElem_mem hmidlt
  have hdmid_bound : b.deltas.getD (splitMid b) 0 ≤ MAX_DELTA := hwfb.bound _ hdmid_mem
  have hrb_val : b.base_value + b.deltas.getD (splitMid b) 0 ∈ bucketValues b :=
    List.mem_map.mpr ⟨_, hdmid_mem, rfl⟩
  -- decomposition pairwise facts
  have hsortedD := hdecomp ▸ hsorted
  have hsepD := hdecomp ▸ hsep
  obtain ⟨hs1, hs2, hs3, hs4, hs5⟩ := pairwise_middle_elim hsortedD
  obtain ⟨hp1, hp2, hp3, hp4, hp5⟩ := pairwise_middle_elim hsepD
  have hhi_gt := dropWhile_base_gt bs value hsorted
  have hmem_of : ∀ c, c ∈ (bs.takeWhile (fun x => x.base_value ≤ value)).dropLast ∨
      c ∈ bs.dropWhile (fun x => x.base_value ≤ value) → c ∈ bs := by
    intro c hc
    rw [hdecomp]
    rcases hc with h | h
    · exact List.mem_append.mpr (Or.inl h)
    · exact List.mem_append.mpr (Or.inr (by simp [h]))
  -- the right bucket from the fold
  have hps_fst : ((b.deltas.drop (splitMid b)).zip (b.ids.drop (splitMid b))).map Prod.fst
      = b.deltas.drop (splitMid b) :=
    List.map_fst_zip _ _ (by simp [hlen])
  have hps_snd : ((b.deltas.drop (splitMid b)).zip (b.ids.drop (splitMid b))).map Prod.snd
      = b.ids.drop (splitMid b) :=
    List.map_snd_zip _ _ (by simp [hlen])
  have hfold := foldl_add_spec b.base_value (b.deltas.getD (splitMid b) 0)
    ((b.deltas.drop (splitMid b)).zip (b.ids.drop (splitMid b)))
    (Bucket.mk (b.base_value + b.deltas.getD (splitMid b) 0) [] [] ∅)
    rfl rfl (by simp) (by simp) (by simp)
    (by
      rw [hps_fst]
      exact hsortb.sublist (List.drop_sublist _ _))
    (by
      intro p hp
      have : p.1 ∈ b.deltas.drop (splitMid b) := by
        rw [← hps_fst]
        exact List.mem_map.mpr ⟨p, hp, rfl⟩
      exact mem_drop_ge_getD b.deltas hsortb (splitMid b) hmidlt p.1 this)
    (by
      intro p hp
      have : p.1 ∈ b.deltas.drop (splitMid b) := by
        rw [← hps_fst]
        exact List.mem_map.mpr ⟨p, hp, rfl⟩
      exact hwfb.bound p.1 ((List.drop_sublist _ _).mem this))
    (by simp)
  obtain ⟨right1, hfoldeq, hr_base, hr_len, hr_ent, hr_ids, hr_del, hr_sort, hr_bound,
    hr_bmp⟩ := hfold
  simp only [entriesOf, List.nil_append, List.zip_nil_left] at hr_ent hr_ids hr_del
  rw [hps_snd] at hr_ids
  -- the left bucket
  have hleft_len : (b.deltas.take (splitMid b)).length = (b.ids.take (splitMid b)).length := by
    simp [hlen]
  have hleft_sort : List.Chain' (· ≤ ·) (b.deltas.take (splitMid b)) :=
    hsortb.sublist (List.take_sublist _ _)
  have hleft_ne : b.ids.take (splitMid b) ≠ [] := by
    intro hcontra
    have h2 := congrArg List.length hcontra
    rw [List.length_take] at h2
    simp only [List.length_nil] at h2
    omega
  have hleft_vals : ∀ w ∈ bucketValues ⟨b.base_value, b.deltas.take (splitMid b),
      b.ids.take (splitMid b), (b.ids.take (splitMid b)).toFinset⟩,
      w < b.base_value + b.deltas.getD (splitMid b) 0 := by
    intro w hw
    simp only [bucketValues] at hw
    obtain ⟨d, hd, rfl⟩ := List.mem_map.mp hw
    have := mem_take_le_getD b.deltas hsortb (splitMid b) hmid0 (by omega) d hd
    omega
  have hleft_wf : BucketWF ⟨b.base_value, b.deltas.take (splitMid b),
      b.ids.take (splitMid b), (b.ids.take (splitMid b)).toFinset⟩ :=
    ⟨hleft_sort, hleft_len, fun d hd => hwfb.bound d ((List.take_sublist _ _).mem hd),
     rfl, hleft_ne⟩
  -- right bucket wellformedness pieces
  have hr_ne : right1.ids ≠ [] := by
    intro hcontra
    have := hr_ids.length_eq
    rw [hcontra] at this
    simp only [List.length_nil] at this
    rw [List.length_drop] at this
    omega
  have hr_wf : BucketWF right1 :=
    ⟨hr_sort, hr_len, hr_bound, hr_bmp, hr_ne⟩
  have hr_vals : ∀ w ∈ bucketValues right1, w ∈ bucketValues b := by
    intro w hw
    obtain ⟨d, hd, rfl⟩ := List.mem_map.mp hw
    have hd2 := hr_del.mem_iff.mp hd
    obtain ⟨p, hp, rfl⟩ := List.mem_map.mp hd2
    have hp1mem : p.1 ∈ b.deltas.drop (splitMid b) := by
      rw [← hps_fst]
      exact List.mem_map.mpr ⟨p, hp, rfl⟩
    have hge := mem_drop_ge_getD b.deltas hsortb (splitMid b) hmidlt p.1 hp1mem
    have : right1.base_value + (p.1 - b.deltas.getD (splitMid b) 0) = b.base_value + p.1 := by
      rw [hr_base]
      omega
    rw [this]
    exact List.mem_map.mpr ⟨p.1, (List.drop_sublist _ _).mem hp1mem, rfl⟩
  have hr_fwd : ∀ e ∈ entriesOf right1, e.2 ≠ id ∧
      fwd e.2 = some (right1.base_value + e.1) := by
    intro e he
    have he2 := hr_ent.mem_iff.mp he
    obtain ⟨p, hp, rfl⟩ := List.mem_map.mp he2
    have hpentb : p ∈ entriesOf b := by
      unfold entriesOf
      rw [zip_drop_drop] at hp
      exact ((List.drop_sublist _ _).mem hp : p ∈ b.deltas.zip b.ids)
    have hp1mem : p.1 ∈ b.deltas.drop (splitMid b) := by
      rw [← hps_fst]
      exact List.mem_map.mpr ⟨p, hp, rfl⟩
    have hge := mem_drop_ge_getD b.deltas hsortb (splitMid b) hmidlt p.1 hp1mem
    obtain ⟨hne, hvalp⟩ := hfwdE b hb p hpentb
    refine ⟨hne, ?_⟩
    rw [hvalp, hr_base]
    congr 1
    omega
  have hid_count : ∀ c ∈ bs, id ∉ c.ids := by
    intro c hc hidc
    obtain ⟨d, hd⟩ := (mem_ids_iff_entries c (hwf c hc).len_eq id).mp hidc
    exact (hfwdE c hc (d, id) hd).1 rfl
  -- entry split of b
  have hent_split : entriesOf b = (b.deltas.take (splitMid b)).zip (b.ids.take (splitMid b))
      ++ (b.deltas.drop (splitMid b)).zip (b.ids.drop (splitMid b)) := by
    unfold entriesOf
    rw [zip_take_take, zip_drop_drop]
    rw [List.take_append_drop]
  have hids_split : b.ids = b.ids.take (splitMid b) ++ b.ids.drop (splitMid b) :=
    (List.take_append_drop _ _).symm
  -- generic assembly of the invariant payload for the two result buckets
  have assemble : ∀ L R : Bucket, BucketWF L → BucketWF R →
      L.base_value = b.base_value →
      R.base_value = b.base_value + b.deltas.getD (splitMid b) 0 →
      (∀ w ∈ bucketValues L, w < b.base_value + b.deltas.getD (splitMid b) 0) →
      (∀ w ∈ bucketValues L, w = value ∨ w ∈ bucketValues b) →
      (∀ w ∈ bucketValues R, w = value ∨ w ∈ bucketValues b) →
      (∀ e ∈ entriesOf L, fwd e.2 = some (L.base_value + e.1)) →
      (∀ e ∈ entriesOf R, fwd e.2 = some (R.base_value + e.1)) →
      (∀ x, L.ids.count x + R.ids.count x =
        b.ids.count x + if x = id then 1 else 0) →
      ((∀ c ∈ (bs.takeWhile (fun x => x.base_value ≤ value)).dropLast ++ L :: R ::
          bs.dropWhile (fun x => x.base_value ≤ value), BucketWF c) ∧
      ((bs.takeWhile (fun x => x.base_value ≤ value)).dropLast ++ L :: R ::
          bs.dropWhile (fun x => x.base_value ≤ value)).Pairwise
        (fun a c => a.base_value < c.base_value) ∧
      ((bs.takeWhile (fun x => x.base_value ≤ value)).dropLast ++ L :: R ::
          bs.dropWhile (fun x => x.base_value ≤ value)).Pairwise
        (fun a c => ∀ w ∈ bucketValues a, w < c.base_value) ∧
      (∀ c ∈ (bs.takeWhile (fun x => x.base_value ≤ value)).dropLast ++ L :: R ::
          bs.dropWhile (fun x => x.base_value ≤ value), ∀ e ∈ entriesOf c,
        fwd e.2 = some (c.base_value + e.1)) ∧
      (∀ x, occCount ((bs.takeWhile (fun x => x.base_value ≤ value)).dropLast ++
          L :: R :: bs.dropWhile (fun x => x.base_value ≤ value)) x =
        occCount bs x + if x = id then 1 else 0)) := by
    intro L R hLwf hRwf hLbase hRbase hLlt hLvals hRvals hLfwd hRfwd hcnt
    refine ⟨?_, ?_, ?_, ?_, ?_⟩
    · intro c hc
      rcases List.mem_append.mp hc with h | h
      · exact hwf c (hmem_of c (Or.inl h))
      rcases List.mem_cons.mp h with rfl | h
      · exact hLwf
      rcases List.mem_cons.mp h with rfl | h
      · exact hRwf
      · exact hwf c (hmem_of c (Or.inr h))
    · refine pairwise_two_middle_intro hs1 hs2 hs3 ?_ ?_ ?_ ?_ ?_
      · intro a ha
        rw [hLbase]
        exact hs4 a ha
      · intro a ha
        have := hs4 a ha
        rw [hRbase]
        omega
      · rw [hLbase, hRbase]
        omega
      · intro c hc
        rw [hLbase]
        exact hs5 c hc
      · intro c hc
        rw [hRbase]
        have h1 := hp5 c hc _ hrb_val
        omega
    · refine pairwise_two_middle_intro hp1 hp2 hp3 ?_ ?_ ?_ ?_ ?_
      · intro a ha w hw
        rw [hLbase]
        exact hp4 a ha w hw
      · intro a ha w hw
        have := hp4 a ha w hw
        rw [hRbase]
        omega
      · intro w hw
        rw [hRbase]
        exact hLlt w hw
      · intro c hc w hw
        rcases hLvals w hw with rfl | hw2
        · exact hhi_gt c hc
        · exact hp5 c hc w hw2
      · intro c hc w hw
        rcases hRvals w hw with rfl | hw2
        · exact hhi_gt c hc
        · exact hp5 c hc w hw2
    · intro c hc e he
      rcases List.mem_append.mp hc with h | h
      · exact (hfwdE c (hmem_of c (Or.inl h)) e he).2
      rcases List.mem_cons.mp h with rfl | h
      · exact hLfwd e he
      rcases List.mem_cons.mp h with rfl | h
      · exact hRfwd e he
      · exact (hfwdE c (hmem_of c (Or.inr h)) e he).2
    · intro x
      conv_rhs => rw [hdecomp]
      rw [occCount_append, occCount_append, occCount_cons, occCount_cons, occCount_cons]
      have := hcnt x
      omega
  -- reduce the operation
  unfold add_to_buckets
  simp only [hlast]
  rw [if_pos hdle, if_pos hfull]
  rw [if_neg hmidne]
  rw [hfoldeq]
  simp only [bind, Except.bind]
  by_cases hcase : b.base_value + b.deltas.getD (splitMid b) 0 ≤ value
  · -- the new entry goes to the right bucket
    rw [if_pos hcase]
    have haddR := add_eq_ok right1 value id (by omega) (by omega)
    cases haddR2 : right1.add value id with
    | error e => exact absurd (haddR.symm.trans haddR2) (by simp)
    | ok R2 =>
        simp only [bind, Except.bind, pure, Except.pure]
        obtain ⟨hR2base, hR2len, hR2ent, hR2ids, hR2bmp, _, hR2del, _, _⟩ :=
          add_ok_props right1 value id R2 hr_len haddR2
        have hR2wf := add_preserves_wf right1 R2 value id hr_wf haddR2
        have hR2vals := (add_values right1 value id R2 hr_len haddR2).1
        have hR2base2 : R2.base_value = b.base_value + b.deltas.getD (splitMid b) 0 := by
          rw [hR2base, hr_base]
        have hshape : putBucket R2
            ((bs.takeWhile (fun x => x.base_value ≤ value)).dropLast ++
              (⟨b.base_value, b.deltas.take (splitMid b), b.ids.take (splitMid b),
                (b.ids.take (splitMid b)).toFinset⟩ : Bucket) ::
              bs.dropWhile (fun x => x.base_value ≤ value)) =
            (bs.takeWhile (fun x => x.base_value ≤ value)).dropLast ++
              (⟨b.base_value, b.deltas.take (splitMid b), b.ids.take (splitMid b),
                (b.ids.take (splitMid b)).toFinset⟩ : Bucket) :: R2 ::
              bs.dropWhile (fun x => x.base_value ≤ value) := by
          have h1 : (bs.takeWhile (fun x => x.base_value ≤ value)).dropLast ++
              (⟨b.base_value, b.deltas.take (splitMid b), b.ids.take (splitMid b),
                (b.ids.take (splitMid b)).toFinset⟩ : Bucket) ::
              bs.dropWhile (fun x => x.base_value ≤ value) =
              ((bs.takeWhile (fun x => x.base_value ≤ value)).dropLast ++
                [⟨b.base_value, b.deltas.take (splitMid b), b.ids.take (splitMid b),
                  (b.ids.take (splitMid b)).toFinset⟩]) ++
              bs.dropWhile (fun x => x.base_value ≤ value) := by
            simp
          rw [h1, putBucket_append R2 _ _ ?_ ?_]
          · simp
          · intro a ha
            rcases List.mem_append.mp ha with h | h
            · have := hs4 a h
              rw [hR2base2]
              omega
            · simp only [List.mem_singleton] at h
              subst h
              rw [hR2base2]
              simp only []
              omega
          · intro c hc
            rw [hR2base2]
            exact hp5 c hc _ hrb_val
        rw [hshape]
        refine ⟨_, R2, rfl, rfl, hR2base2, hleft_sort, hR2wf.sorted, rfl, hR2wf.bitmap,
          ?_, ?_, ?_⟩
        · intro w hw
          rw [hR2base2]
          exact hleft_vals w hw
        · rw [if_neg (by omega)]
          refine ⟨rfl, ?_⟩
          have h2 : (entriesOf R2).Perm
              ((value - (b.base_value + b.deltas.getD (splitMid b) 0), id) ::
                (right1.deltas.zip right1.ids)) := by
            have := hR2ent
            rw [hr_base] at this
            exact this
          exact h2.trans (List.Perm.cons _ hr_ent)
        · refine assemble _ R2 hleft_wf hR2wf rfl hR2base2 hleft_vals ?_ ?_ ?_ ?_ ?_
          · intro w hw
            right
            simp only [bucketValues] at hw ⊢
            obtain ⟨d, hd, rfl⟩ := List.mem_map.mp hw
            exact List.mem_map.mpr ⟨d, (List.take_sublist _ _).mem hd, rfl⟩
          · intro w hw
            rcases List.mem_cons.mp (hR2vals.mem_iff.mp hw) with rfl | hw2
            · exact Or.inl rfl
            · exact Or.inr (hr_vals w hw2)
          · intro e he
            have heb : e ∈ entriesOf b := by
              rw [hent_split]
              exact List.mem_append.mpr (Or.inl he)
            simpa using (hfwdE b hb e heb).2
          · intro e he
            rcases List.mem_cons.mp (hR2ent.mem_iff.mp he) with rfl | he2
            · rw [hR2base]
              simp only []
              rw [Nat.add_sub_cancel' (by omega : right1.base_value ≤ value)]
              exact hfid
            · rw [hR2base]
              exact (hr_fwd e he2).2
          · intro x
            have hc1 := hR2ids.count_eq x
            rw [List.count_cons] at hc1
            have hc2 := hr_ids.count_eq x
            have hc3 : b.ids.count x = (b.ids.take (splitMid b)).count x +
                (b.ids.drop (splitMid b)).count x := by
              conv_lhs => rw [hids_split]
              rw [List.count_append]
            by_cases hx : x = id
            · subst hx
              simp at hc1
              rw [if_pos rfl]
              show List.count x (b.ids.take (splitMid b)) + List.count x R2.ids =
                List.count x b.ids + 1
              omega
            · have hbeq : (id == x) = false := by simp [Ne.symm hx]
              rw [hbeq] at hc1
              norm_num at hc1
              rw [if_neg hx]
              show List.count x (b.ids.take (splitMid b)) + List.count x R2.ids =
                List.count x b.ids + 0
              omega
  · -- the new entry goes to the left bucket
    rw [if_neg hcase]
    have haddL := add_eq_ok ⟨b.base_value, b.deltas.take (splitMid b),
      b.ids.take (splitMid b), (b.ids.take (splitMid b)).toFinset⟩ value id hble hdle
    cases haddL2 : (⟨b.base_value, b.deltas.take (splitMid b), b.ids.take (splitMid b),
        (b.ids.take (splitMid b)).toFinset⟩ : Bucket).add value id with
    | error e => exact absurd (haddL.symm.trans haddL2) (by simp)
    | ok L2 =>
        simp only [bind, Except.bind, pure, Except.pure]
        obtain ⟨hL2base, hL2len, hL2ent, hL2ids, hL2bmp, _, hL2del, _, _⟩ :=
          add_ok_props _ value id L2 hleft_len haddL2
        have hL2wf := add_preserves_wf _ L2 value id hleft_wf haddL2
        have hL2vals := (add_values _ value id L2 hleft_len haddL2).1
        have hL2base2 : L2.base_value = b.base_value := hL2base
        have hL2vals_lt : ∀ w ∈ bucketValues L2,
            w < b.base_value + b.deltas.getD (splitMid b) 0 := by
          intro w hw
          rcases List.mem_cons.mp (hL2vals.mem_iff.mp hw) with rfl | hw2
          · omega
          · exact hleft_vals w hw2
        have hshape : putBucket right1
            ((bs.takeWhile (fun x => x.base_value ≤ value)).dropLast ++ L2 ::
              bs.dropWhile (fun x => x.base_value ≤ value)) =
            (bs.takeWhile (fun x => x.base_value ≤ value)).dropLast ++ L2 :: right1 ::
              bs.dropWhile (fun x => x.base_value ≤ value) := by
          have h1 : (bs.takeWhile (fun x => x.base_value ≤ value)).dropLast ++ L2 ::
              bs.dropWhile (fun x => x.base_value ≤ value) =
              ((bs.takeWhile (fun x => x.base_value ≤ value)).dropLast ++ [L2]) ++
              bs.dropWhile (fun x => x.base_value ≤ value) := by
            simp
          rw [h1, putBucket_append right1 _ _ ?_ ?_]
          · simp
          · intro a ha
            rcases List.mem_append.mp ha with h | h
            · have := hs4 a h
              rw [hr_base]
              omega
            · simp only [List.mem_singleton] at h
              subst h
              rw [hr_base, hL2base2]
              omega
          · intro c hc
            rw [hr_base]
            exact hp5 c hc _ hrb_val
        rw [hshape]
        refine ⟨L2, right1, rfl, hL2base2, hr_base, hL2wf.sorted, hr_sort,
          hL2wf.bitmap, hr_bmp, ?_, ?_, ?_⟩
        · intro w hw
          rw [hr_base]
          exact hL2vals_lt w hw
        · rw [if_pos (by omega)]
          refine ⟨?_, ?_⟩
          · exact hL2ent
          · simp only [entriesOf]
            exact hr_ent
        · refine assemble L2 right1 hL2wf hr_wf hL2base2 hr_base hL2vals_lt ?_ ?_ ?_ ?_ ?_
          · intro w hw
            rcases List.mem_cons.mp (hL2vals.mem_iff.mp hw) with rfl | hw2
            · exact Or.inl rfl
            · right
              simp only [bucketValues] at hw2 ⊢
              obtain ⟨d, hd, rfl⟩ := List.mem_map.mp hw2
              exact List.mem_map.mpr ⟨d, (List.take_sublist _ _).mem hd, rfl⟩
          · intro w hw
            exact Or.inr (hr_vals w hw)
          · intro e he
            rcases List.mem_cons.mp (hL2ent.mem_iff.mp he) with rfl | he2
            · rw [hL2base2]
              simp only []
              rw [Nat.add_sub_cancel' hble]
              exact hfid
            · have heb : e ∈ entriesOf b := by
                rw [hent_split]
                exact List.mem_append.mpr (Or.inl he2)
              rw [hL2base2]
              exact (hfwdE b hb e heb).2
          · intro e he
            exact (hr_fwd e he).2
          · intro x
            have hc1 := hL2ids.count_eq x
            rw [List.count_cons] at hc1
            have hc2 := hr_ids.count_eq x
            have hc3 : b.ids.count x = (b.ids.take (splitMid b)).count x +
                (b.ids.drop (splitMid b)).count x := by
              conv_lhs => rw [hids_split]
              rw [List.count_append]
            by_cases hx : x = id
            · subst hx
              simp at hc1
              rw [if_pos rfl]
              show List.count x L2.ids + List.count x right1.ids =
                List.count x b.ids + 1
              omega
            · have hbeq : (id == x) = false := by simp [Ne.symm hx]
              rw [hbeq] at hc1
              norm_num at hc1
              rw [if_neg hx]
              show List.count x L2.ids + List.count x right1.ids =
                List.count x b.ids + 0
              omega

theorem add_empty (value id : Nat) :
    (Bucket.mk value [] [] ∅).add value id = .ok ⟨value, [0], [id], insert id ∅⟩ := by
  rw [add_eq_ok _ _ _ (le_refl _) (by simp)]
  simp [lowerBound, Nat.sub_self]

theorem add_to_buckets_spec (fwd : Nat → Option Nat) (bs : List Bucket) (value id : Nat)
    (hwf : ∀ c ∈ bs, BucketWF c)
    (hsorted : bs.Pairwise (fun a c => a.base_value < c.base_value))
    (hsep : bs.Pairwise (fun a c => ∀ w ∈ bucketValues a, w < c.base_value))
    (hfwdE : ∀ c ∈ bs, ∀ e ∈ entriesOf c, e.2 ≠ id ∧ fwd e.2 = some (c.base_value + e.1))
    (hfid : fwd id = some value) :
    ∃ bs2, add_to_buckets bs value id = .ok bs2 ∧
      (∀ c ∈ bs2, BucketWF c) ∧
      bs2.Pairwise (fun a c => a.base_value < c.base_value) ∧
      bs2.Pairwise (fun a c => ∀ w ∈ bucketValues a, w < c.base_value) ∧
      (∀ c ∈ bs2, ∀ e ∈ entriesOf c, fwd e.2 = some (c.base_value + e.1)) ∧
      (∀ x, occCount bs2 x = occCount bs x + if x = id then 1 else 0) := by
  cases hlast : (bs.takeWhile (fun x => x.base_value ≤ value)).getLast? with
  | none =>
      have hlo_nil : bs.takeWhile (fun x => x.base_value ≤ value) = [] :=
        List.getLast?_eq_none_iff.mp hlast
      have hlo_lt : ∀ a ∈ bs.takeWhile (fun x => x.base_value ≤ value),
          a.base_value < value := by
        rw [hlo_nil]
        simp
      have hlo_vals : ∀ a ∈ bs.takeWhile (fun x => x.base_value ≤ value),
          ∀ w ∈ bucketValues a, w < value := by
        rw [hlo_nil]
        simp
      obtain ⟨hput, h1, h2, h3, h4, h5⟩ := create_bucket_spec fwd bs value id hwf hsorted
        hsep hfwdE hfid hlo_lt hlo_vals
      refine ⟨_, ?_, h1, h2, h3, h4, h5⟩
      unfold add_to_buckets
      simp only [hlast]
      rw [add_empty]
      simp only [Except.map]
      rw [hput]
  | some b =>
      have hble : b.base_value ≤ value :=
        takeWhile_base_le bs value b (mem_of_getLast?_eq_some hlast)
      have hdecomp := cover_decomp bs value b hlast
      have hb : b ∈ bs := by
        rw [hdecomp]
        simp
      by_cases hdle : value - b.base_value ≤ MAX_DELTA
      · by_cases hfull : MAX_SIZE ≤ b.ids.length
        · by_cases hmid : splitMid b = b.deltas.length
          · -- oversize append into the single-value bucket
            cases hadd2 : b.add value id with
            | error e =>
                exact absurd ((add_eq_ok b value id hble hdle).symm.trans hadd2) (by simp)
            | ok b2 =>
                obtain ⟨hbase2, hlen2, hent2, hids2, hbmp2, _, hdel2, _, _⟩ :=
                  add_ok_props b value id b2 (hwf b hb).len_eq hadd2
                obtain ⟨h1, h2, h3, h4, h5⟩ := replace_covering_spec fwd bs value id b b2
                  hwf hsorted hsep hfwdE hfid hlast
                  (add_preserves_wf b b2 value id (hwf b hb) hadd2) hbase2
                  (add_values b value id b2 (hwf b hb).len_eq hadd2).1 hent2 hids2 hble
                refine ⟨_, ?_, h1, h2, h3, h4, h5⟩
                unfold add_to_buckets
                simp only [hlast]
                rw [if_pos hdle, if_pos hfull, if_pos hmid, hadd2]
                simp only [Except.map]
          · -- genuine split
            obtain ⟨left2, right2, heq, _, _, _, _, _, _, _, _, h1, h2, h3, h4, h5⟩ :=
              split_case_spec fwd bs value id b hwf hsorted hsep hfwdE hfid hlast hdle
                hfull hmid
            exact ⟨_, heq, h1, h2, h3, h4, h5⟩
        · -- normal insert into the covering bucket
          cases hadd2 : b.add value id with
          | error e =>
              exact absurd ((add_eq_ok b value id hble hdle).symm.trans hadd2) (by simp)
          | ok b2 =>
              obtain ⟨hbase2, hlen2, hent2, hids2, hbmp2, _, hdel2, _, _⟩ :=
                add_ok_props b value id b2 (hwf b hb).len_eq hadd2
              obtain ⟨h1, h2, h3, h4, h5⟩ := replace_covering_spec fwd bs value id b b2
                hwf hsorted hsep hfwdE hfid hlast
                (add_preserves_wf b b2 value id (hwf b hb) hadd2) hbase2
                (add_values b value id b2 (hwf b hb).len_eq hadd2).1 hent2 hids2 hble
              refine ⟨_, ?_, h1, h2, h3, h4, h5⟩
              unfold add_to_buckets
              simp only [hlast]
              rw [if_pos hdle, if_neg hfull, hadd2]
              simp only [Except.map]
      · -- the covering bucket has no delta room: create a new bucket at value
        have hlo_eq : bs.takeWhile (fun x => x.base_value ≤ value) =
            (bs.takeWhile (fun x => x.base_value ≤ value)).dropLast ++ [b] :=
          (List.dropLast_append_getLast? b hlast).symm
        have hlo_lt : ∀ a ∈ bs.takeWhile (fun x => x.base_value ≤ value),
            a.base_value < value := by
          intro a ha
          rw [hlo_eq] at ha
          have hsD := hdecomp ▸ hsorted
          obtain ⟨_, _, _, hs4, _⟩ := pairwise_middle_elim hsD
          rcases List.mem_append.mp ha with h | h
          · have := hs4 a h
            omega
          · simp only [List.mem_singleton] at h
            subst h
            omega
        have hlo_vals : ∀ a ∈ bs.takeWhile (fun x => x.base_value ≤ value),
            ∀ w ∈ bucketValues a, w < value := by
          intro a ha w hw
          rw [hlo_eq] at ha
          have hpD := hdecomp ▸ hsep
          obtain ⟨_, _, _, hp4, _⟩ := pairwise_middle_elim hpD
          rcases List.mem_append.mp ha with h | h
          · have := hp4 a h w hw
            omega
          · simp only [List.mem_singleton] at h
            subst h
            obtain ⟨d, hd, rfl⟩ := List.mem_map.mp hw
            have := (hwf a hb).bound d hd
            omega
        obtain ⟨hput, h1, h2, h3, h4, h5⟩ := create_bucket_spec fwd bs value id hwf hsorted
          hsep hfwdE hfid hlo_lt hlo_vals
        refine ⟨_, ?_, h1, h2, h3, h4, h5⟩
        unfold add_to_buckets
        simp only [hlast]
        rw [if_neg hdle, add_empty]
        simp only [Except.map]
        rw [hput]

/-! ## Invariant preservation -/

theorem Inv_empty : Inv emptyState := by
  refine ⟨?_, ?_, ?_, ?_, ?_⟩ <;> simp [emptyState]

theorem put_internal_spec (s : IndexState) (hInv : Inv s) (id value : Nat) :
    ∃ s2, put_internal s id value = .ok s2 ∧ Inv s2 ∧
      s2.forward id = some value ∧
      (∀ x, x ≠ id → s2.forward x = s.forward x) := by
  unfold put_internal
  cases hold : s.forward id with
  | some old =>
      dsimp only
      by_cases heq : old = value
      · rw [if_pos heq]
        subst heq
        exact ⟨s, rfl, hInv, hold, fun x _ => rfl⟩
      · rw [if_neg heq]
        obtain ⟨hwf1, hsort1, hsep1, hfwd1, hocc1, hocc0⟩ :=
          remove_from_buckets_spec s hInv id old hold
        have hfwdE2 : ∀ c ∈ remove_from_buckets s.buckets old id, ∀ e ∈ entriesOf c,
            e.2 ≠ id ∧ (fun x => if x = id then some value else s.forward x) e.2 =
              some (c.base_value + e.1) := by
          intro c hc e he
          obtain ⟨hne, hval⟩ := hfwd1 c hc e he
          refine ⟨hne, ?_⟩
          simp only [if_neg hne]
          exact hval
        obtain ⟨bs2, hbs2, h1, h2, h3, h4, h5⟩ := add_to_buckets_spec
          (fun x => if x = id then some value else s.forward x)
          (remove_from_buckets s.buckets old id) value id
          hwf1 hsort1 hsep1 hfwdE2 (by simp)
        refine ⟨⟨fun x => if x = id then some value else s.forward x, bs2⟩, ?_, ?_,
          by simp, fun x hx => by simp [if_neg hx]⟩
        · rw [hbs2]
          simp only [Except.map]
        · refine ⟨h1, h2, h3, h4, ?_⟩
          intro x v hx
          by_cases hxid : x = id
          · subst hxid
            rw [h5, if_pos rfl, hocc0]
          · rw [h5, if_neg hxid, hocc1 x hxid]
            simp only [if_neg hxid] at hx
            exact hInv.occ x v hx
  | none =>
      dsimp only
      have hfwdE2 : ∀ c ∈ s.buckets, ∀ e ∈ entriesOf c,
          e.2 ≠ id ∧ (fun x => if x = id then some value else s.forward x) e.2 =
            some (c.base_value + e.1) := by
        intro c hc e he
        have hval := hInv.fwdOfEntry c hc e he
        have hne : e.2 ≠ id := by
          intro hcontra
          rw [hcontra, hold] at hval
          cases hval
        refine ⟨hne, ?_⟩
        simp only [if_neg hne]
        exact hval
      obtain ⟨bs2, hbs2, h1, h2, h3, h4, h5⟩ := add_to_buckets_spec
        (fun x => if x = id then some value else s.forward x) s.buckets value id
        hInv.wf hInv.basesSorted hInv.sep hfwdE2 (by simp)
      have hocc0 : occCount s.buckets id = 0 :=
        occCount_eq_zero_of_forward_none s hInv.wf hInv.fwdOfEntry id hold
      refine ⟨⟨fun x => if x = id then some value else s.forward x, bs2⟩, ?_, ?_,
        by simp, fun x hx => by simp [if_neg hx]⟩
      · rw [hbs2]
        simp only [Except.map]
      · refine ⟨h1, h2, h3, h4, ?_⟩
        intro x v hx
        by_cases hxid : x = id
        · subst hxid
          rw [h5, if_pos rfl, hocc0]
        · rw [h5, if_neg hxid]
          simp only [if_neg hxid] at hx
          have := hInv.occ x v hx
          omega

theorem put_spec (s : IndexState) (hInv : Inv s) (id value : Nat) :
    Inv (put s id value) ∧ (put s id value).forward id = some value ∧
      (∀ x, x ≠ id → (put s id value).forward x = s.forward x) := by
  obtain ⟨s2, hok, hinv2, hfwd2, hother⟩ := put_internal_spec s hInv id value
  unfold put
  rw [hok]
  exact ⟨hinv2, hfwd2, hother⟩

theorem removeOp_spec (s : IndexState) (hInv : Inv s) (id : Nat) :
    Inv (removeOp s id) ∧ (removeOp s id).forward id = none ∧
      (∀ x, x ≠ id → (removeOp s id).forward x = s.forward x) := by
  unfold removeOp
  cases hold : s.forward id with
  | some old =>
      dsimp only
      obtain ⟨hwf1, hsort1, hsep1, hfwd1, hocc1, hocc0⟩ :=
        remove_from_buckets_spec s hInv id old hold
      refine ⟨⟨hwf1, hsort1, hsep1, ?_, ?_⟩, by simp, fun x hx => by simp [if_neg hx]⟩
      · intro c hc e he
        obtain ⟨hne, hval⟩ := hfwd1 c hc e he
        simp only [if_neg hne]
        exact hval
      · intro x v hx
        simp only [] at hx
        by_cases hxid : x = id
        · rw [if_pos hxid] at hx
          cases hx
        · rw [if_neg hxid] at hx
          rw [hocc1 x hxid]
          exact hInv.occ x v hx
  | none => exact ⟨hInv, hold, fun x _ => rfl⟩

theorem applyOp_inv (s : IndexState) (hInv : Inv s) (op : Op) : Inv (applyOp s op) := by
  cases op with
  | put id value => exact (put_spec s hInv id value).1
  | del id => exact (removeOp_spec s hInv id).1

theorem foldl_inv (ops : List Op) (s : IndexState) (h : Inv s) :
    Inv (ops.foldl applyOp s) := by
  induction ops generalizing s with
  | nil => exact h
  | cons op rest ih => exact ih (applyOp s op) (applyOp_inv s h op)

/-- Every state reachable by a sequence of put and remove calls
satisfies the index invariant. -/
theorem run_inv (ops : List Op) : Inv (run ops) :=
  foldl_inv ops emptyState Inv_empty

/-! ## Range correctness -/

theorem chain'_headD_le (l : List Nat) (hs : List.Chain' (· ≤ ·) l) :
    ∀ d ∈ l, l.headD 0 ≤ d := by
  cases l with
  | nil => intro d hd; cases hd
  | cons a t =>
      intro d hd
      rcases List.mem_cons.mp hd with rfl | hd2
      · simp
      · have hpw := List.chain'_iff_pairwise.mp hs
        exact (List.pairwise_cons.mp hpw).1 d hd2

theorem chain'_le_getLastD (l : List Nat) (hs : List.Chain' (· ≤ ·) l) :
    ∀ d ∈ l, d ≤ l.getLastD 0 := by
  intro d hd
  obtain ⟨i, hi, hget⟩ := List.mem_iff_getElem.mp hd
  have hl1 : l.length - 1 < l.length := by omega
  have hlast : l.getLastD 0 = l[l.length - 1] := by
    rw [List.getLastD_eq_getLast?, List.getLast?_eq_getElem?]
    rw [List.getElem?_eq_getElem (by omega)]
    rfl
  rw [hlast, ← hget]
  have hpw := List.chain'_iff_pairwise.mp hs
  rcases Nat.lt_or_ge i (l.length - 1) with h | h
  · exact List.pairwise_iff_getElem.mp hpw i (l.length - 1) hi (by omega) h
  · have : i = l.length - 1 := by omega
    subst this
    exact le_refl _

theorem rangeContrib_mem (b : Bucket) (hwfb : BucketWF b) (minV maxV x : Nat) :
    x ∈ rangeContrib b minV maxV ↔
      ∃ e ∈ entriesOf b, e.2 = x ∧ minV ≤ b.base_value + e.1 ∧
        b.base_value + e.1 ≤ maxV := by
  unfold rangeContrib
  rw [if_neg (by simp [hwfb.nonempty])]
  by_cases hfull : minV ≤ b.base_value + b.deltas.headD 0 ∧
      b.base_value + b.deltas.getLastD 0 ≤ maxV
  · rw [if_pos hfull]
    rw [hwfb.bitmap]
    constructor
    · intro hx
      have hxids : x ∈ b.ids := List.mem_toFinset.mp hx
      obtain ⟨d, hd⟩ := (mem_ids_iff_entries b hwfb.len_eq x).mp hxids
      have hdmem : d ∈ b.deltas := (List.of_mem_zip hd).1
      have h1 := chain'_headD_le b.deltas hwfb.sorted d hdmem
      have h2 := chain'_le_getLastD b.deltas hwfb.sorted d hdmem
      exact ⟨(d, x), hd, rfl, by omega, by omega⟩
    · rintro ⟨e, he, rfl, h1, h2⟩
      exact List.mem_toFinset.mpr (List.of_mem_zip he).2
  · rw [if_neg hfull]
    rw [List.mem_toFinset]
    constructor
    · intro hx
      obtain ⟨e, he, rfl⟩ := List.mem_map.mp hx
      have he2 := List.mem_filter.mp he
      refine ⟨e, he2.1, rfl, ?_, ?_⟩ <;>
        · have := of_decide_eq_true he2.2
          omega
    · rintro ⟨e, he, rfl, h1, h2⟩
      refine List.mem_map.mpr ⟨e, List.mem_filter.mpr ⟨he, ?_⟩, rfl⟩
      exact decide_eq_true (by omega)

theorem rangeLoop_mem (minV maxV : Nat) (bs : List Bucket)
    (hsorted : bs.Pairwise (fun a c => a.base_value < c.base_value)) (x : Nat) :
    x ∈ rangeLoop minV maxV bs ↔
      ∃ b ∈ bs, b.base_value ≤ maxV ∧ x ∈ rangeContrib b minV maxV := by
  induction bs with
  | nil => simp [rangeLoop]
  | cons b rest ih =>
      unfold rangeLoop
      by_cases hmax : maxV < b.base_value
      · rw [if_pos hmax]
        simp only [Finset.not_mem_empty, false_iff]
        rintro ⟨c, hc, hcmax, _⟩
        rcases List.mem_cons.mp hc with rfl | hc2
        · omega
        · have := (List.pairwise_cons.mp hsorted).1 c hc2
          omega
      · rw [if_neg hmax]
        rw [Finset.mem_union]
        rw [ih (List.pairwise_cons.mp hsorted).2]
        constructor
        · rintro (h | ⟨c, hc, h1, h2⟩)
          · exact ⟨b, by simp, by omega, h⟩
          · exact ⟨c, by simp [hc], h1, h2⟩
        · rintro ⟨c, hc, h1, h2⟩
          rcases List.mem_cons.mp hc with rfl | hc2
          · exact Or.inl h2
          · exact Or.inr ⟨c, hc2, h1, h2⟩

theorem takeWhile_lt_eq_take (bs : List Bucket) (minV : Nat) :
    bs.takeWhile (fun b => b.base_value < minV) =
      bs.take (bs.takeWhile (fun b => b.base_value < minV)).length := by
  have := List.takeWhile_prefix (l := bs) (p := fun b => decide (b.base_value < minV))
  exact List.prefix_iff_eq_take.mp this

theorem sep_take_lt (bs : List Bucket)
    (hsep : bs.Pairwise (fun a c => ∀ w ∈ bucketValues a, w < c.base_value))
    (k : Nat) (hk : k < bs.length) :
    ∀ b ∈ bs.take k, ∀ w ∈ bucketValues b, w < bs[k].base_value := by
  intro b hb w hw
  have hsplit : bs = bs.take k ++ bs.drop k := (List.take_append_drop _ _).symm
  have hdropk : bs.drop k = bs[k] :: bs.drop (k + 1) :=
    (List.getElem_cons_drop bs k hk).symm
  have hpw := hsplit ▸ hsep
  have hmemd : bs[k] ∈ bs.drop k := by
    rw [hdropk]
    exact List.mem_cons_self _ _
  have := (List.pairwise_append.mp hpw).2.2 b hb (bs[k]) hmemd
  exact this w hw

/-- Every bucket the range scan skips holds only values below min_val. -/
theorem startIdx_dropped_lt (s : IndexState) (hInv : Inv s) (minV : Nat) :
    ∀ b ∈ s.buckets.take (startIdx s.buckets minV), ∀ w ∈ bucketValues b, w < minV := by
  intro b hb w hw
  set i := (s.buckets.takeWhile (fun b => b.base_value < minV)).length with hi
  clear_value i
  have hile : i ≤ s.buckets.length := by
    rw [hi]
    exact (List.takeWhile_sublist _).length_le
  have hmem_lt : ∀ j (hj : j < i), ∀ (hj2 : j < s.buckets.length),
      s.buckets[j].base_value < minV := by
    intro j hj hj2
    have hpre : s.buckets.takeWhile (fun b => b.base_value < minV) <+: s.buckets :=
      List.takeWhile_prefix _
    have hjlt : j < (s.buckets.takeWhile (fun b => b.base_value < minV)).length := by
      omega
    have hget := hpre.getElem hjlt
    have hmemTW : (s.buckets.takeWhile (fun b => b.base_value < minV))[j] ∈
        s.buckets.takeWhile (fun b => b.base_value < minV) := List.getElem_mem _
    have hpred := List.mem_takeWhile_imp hmemTW
    rw [hget] at hpred
    simpa using hpred
  unfold startIdx at hb
  rw [← hi] at hb
  by_cases hlt : i < s.buckets.length
  · rw [dif_pos hlt] at hb
    by_cases heq : (s.buckets.get ⟨i, hlt⟩).base_value = minV
    · rw [if_pos heq] at hb
      have := sep_take_lt s.buckets hInv.sep i hlt b hb w hw
      simp only [List.get_eq_getElem] at heq
      omega
    · rw [if_neg heq] at hb
      rcases Nat.eq_zero_or_pos i with hi0 | hi0
      · rw [hi0] at hb
        simp at hb
      · have hi1 : i - 1 < s.buckets.length := by omega
        have := sep_take_lt s.buckets hInv.sep (i - 1) hi1 b hb w hw
        have := hmem_lt (i - 1) (by omega) (by omega)
        omega
  · rw [dif_neg hlt] at hb
    rcases Nat.eq_zero_or_pos i with hi0 | hi0
    · rw [hi0] at hb
      simp at hb
    · have hlen : s.buckets.length = i := by omega
      have hi1 : i - 1 < s.buckets.length := by omega
      have := sep_take_lt s.buckets hInv.sep (i - 1) hi1 b hb w hw
      have := hmem_lt (i - 1) (by omega) (by omega)
      omega

/-- Range query = exactly the ids whose forward value lies in [min, max]. -/
theorem rangeQuery_correct (s : IndexState) (hInv : Inv s) (minV maxV x : Nat) :
    x ∈ rangeQuery s minV maxV ↔
      ∃ v, s.forward x = some v ∧ minV ≤ v ∧ v ≤ maxV := by
  unfold rangeQuery
  rw [rangeLoop_mem minV maxV _
    (hInv.basesSorted.sublist (List.drop_sublist _ _)) x]
  constructor
  · rintro ⟨b, hb, _, hx⟩
    have hbbs : b ∈ s.buckets := (List.drop_sublist _ _).subset hb
    obtain ⟨e, he, hex, h1, h2⟩ :=
      (rangeContrib_mem b (hInv.wf b hbbs) minV maxV x).mp hx
    refine ⟨b.base_value + e.1, ?_, h1, h2⟩
    rw [← hex]
    exact hInv.fwdOfEntry b hbbs e he
  · rintro ⟨v, hv, h1, h2⟩
    have hocc := hInv.occ x v hv
    obtain ⟨b, hbbs, hxb⟩ := exists_mem_of_occCount_pos s.buckets x (by omega)
    have hwfb := hInv.wf b hbbs
    obtain ⟨d, hd⟩ := (mem_ids_iff_entries b hwfb.len_eq x).mp hxb
    have hfv : s.forward x = some (b.base_value + d) :=
      hInv.fwdOfEntry b hbbs (d, x) hd
    have hveq : v = b.base_value + d := by
      rw [hv] at hfv
      exact Option.some.inj hfv
    have hvmem : v ∈ bucketValues b := by
      rw [hveq]
      exact List.mem_map.mpr ⟨d, (List.of_mem_zip hd).1, rfl⟩
    have hbdrop : b ∈ s.buckets.drop (startIdx s.buckets minV) := by
      have hsplit := (List.take_append_drop (startIdx s.buckets minV) s.buckets).symm
      rcases List.mem_append.mp (hsplit ▸ hbbs) with hmem | hmem
      · have := startIdx_dropped_lt s hInv minV b hmem v hvmem
        omega
      · exact hmem
    refine ⟨b, hbdrop, by omega, ?_⟩
    exact (rangeContrib_mem b hwfb minV maxV x).mpr ⟨(d, x), hd, rfl, by omega, by omega⟩

theorem occCount_zero_countP (bs : List Bucket) (id : Nat)
    (h : occCount bs id = 0) :
    bs.countP (fun b => decide (id ∈ b.ids)) = 0 := by
  induction bs with
  | nil => rfl
  | cons b t ih =>
      rw [occCount_cons] at h
      have hnot : id ∉ b.ids := by
        intro hm
        have := count_pos_iff_mem.mpr hm
        omega
      rw [List.countP_cons, ih (by omega)]
      simp [hnot]

theorem occCount_one_countP (bs : List Bucket) (id : Nat)
    (h : occCount bs id = 1) :
    bs.countP (fun b => decide (id ∈ b.ids)) = 1 := by
  induction bs with
  | nil => simp [occCount] at h
  | cons b t ih =>
      rw [occCount_cons] at h
      rw [List.countP_cons]
      rcases Nat.eq_zero_or_pos (b.ids.count id) with h0 | hpos
      · have hnot : id ∉ b.ids := by
          intro hm
          have := count_pos_iff_mem.mpr hm
          omega
        rw [ih (by omega)]
        simp [hnot]
      · have hmem : id ∈ b.ids := count_pos_iff_mem.mp hpos
        rw [occCount_zero_countP t id (by omega)]
        simp [hmem]

/-- C1: in every state reachable by put/remove sequences, range(min, max)
returns exactly the ids whose forward value v satisfies min ≤ v ≤ max, and
the full-overlap bitmap fast path of a bucket agrees with per-entry
filtering of that bucket. -/
theorem c1_range_exact (ops : List Op) (minV maxV x : Nat) :
    (x ∈ rangeQuery (run ops) minV maxV ↔
      ∃ v, (run ops).forward x = some v ∧ minV ≤ v ∧ v ≤ maxV) ∧
    (∀ b ∈ (run ops).buckets,
      minV ≤ b.base_value + b.deltas.headD 0 →
      b.base_value + b.deltas.getLastD 0 ≤ maxV →
      rangeContrib b minV maxV =
        (((b.deltas.zip b.ids).filter
          (fun e => minV ≤ b.base_value + e.1 ∧ b.base_value + e.1 ≤ maxV)).map
          (fun e => e.2)).toFinset) := by
  have hInv := run_inv ops
  refine ⟨rangeQuery_correct _ hInv minV maxV x, ?_⟩
  intro b hb h1 h2
  have hwfb := hInv.wf b hb
  ext y
  rw [rangeContrib_mem b hwfb minV maxV y]
  simp only [List.mem_toFinset, List.mem_map, List.mem_filter]
  constructor
  · rintro ⟨e, he, rfl, hb1, hb2⟩
    exact ⟨e, ⟨he, decide_eq_true ⟨hb1, hb2⟩⟩, rfl⟩
  · rintro ⟨e, ⟨he, hcond⟩, rfl⟩
    have hc := of_decide_eq_true hcond
    exact ⟨e, he, rfl, hc.1, hc.2⟩

/-- C2: forward/inverted consistency holds in every reachable state: a
forward entry id ↦ v has exactly one bucket containing id, that bucket's
base is ≤ v, and the delta stored alongside id equals v − base. -/
theorem c2_forward_inverted_consistency (ops : List Op) (id v : Nat)
    (hf : (run ops).forward id = some v) :
    (run ops).buckets.countP (fun b => decide (id ∈ b.ids)) = 1 ∧
    ∀ b ∈ (run ops).buckets, id ∈ b.ids →
      b.base_value ≤ v ∧
      ∀ i, i < b.ids.length → b.ids.getD i 0 = id →
        b.deltas.getD i 0 = v - b.base_value := by
  have hInv := run_inv ops
  have hocc := hInv.occ id v hf
  refine ⟨occCount_one_countP _ id hocc, ?_⟩
  intro b hb hid
  have hwfb := hInv.wf b hb
  have key : ∀ i, i < b.ids.length → b.ids.getD i 0 = id →
      v = b.base_value + b.deltas.getD i 0 := by
    intro i hi hgi
    have hlt : i < b.deltas.length := by
      rw [hwfb.len_eq]
      exact hi
    have hzl : i < (b.deltas.zip b.ids).length := by
      rw [List.length_zip]
      omega
    have hdg : b.deltas.getD i 0 = b.deltas[i] := List.getD_eq_getElem _ _ hlt
    have hig : b.ids[i] = id := by
      rw [← List.getD_eq_getElem b.ids 0 hi]
      exact hgi
    have hentry : (b.deltas.getD i 0, id) ∈ entriesOf b := by
      refine List.mem_iff_getElem.mpr ⟨i, hzl, ?_⟩
      show (b.deltas.zip b.ids)[i] = (b.deltas.getD i 0, id)
      rw [List.getElem_zip]
      simp only [Prod.mk.injEq]
      exact ⟨hdg.symm, hig⟩
    have hfe := hInv.fwdOfEntry b hb (b.deltas.getD i 0, id) hentry
    rw [hf] at hfe
    exact Option.some.inj hfe
  constructor
  · obtain ⟨i, hi, hgi⟩ := List.mem_iff_getElem.mp hid
    have := key i hi (by rw [List.getD_eq_getElem b.ids 0 hi]; exact hgi)
    omega
  · intro i hi hgi
    have := key i hi hgi
    omega

/-- C9: put is a point update — after put(id, v1) then put(id, v2) with
v1 ≠ v2, the forward index maps id to v2, range(v1, v1) excludes id and
range(v2, v2) contains id. -/
theorem c9_point_update (ops : List Op) (id v1 v2 : Nat) (hne : v1 ≠ v2) :
    (run (ops ++ [Op.put id v1, Op.put id v2])).forward id = some v2 ∧
    id ∉ rangeQuery (run (ops ++ [Op.put id v1, Op.put id v2])) v1 v1 ∧
    id ∈ rangeQuery (run (ops ++ [Op.put id v1, Op.put id v2])) v2 v2 := by
  have hrun : run (ops ++ [Op.put id v1, Op.put id v2]) =
      put (put (run ops) id v1) id v2 := by
    unfold run
    rw [List.foldl_append]
    rfl
  have hInv1 : Inv (put (run ops) id v1) := (put_spec (run ops) (run_inv ops) id v1).1
  obtain ⟨hInv2, hfwd, -⟩ := put_spec (put (run ops) id v1) hInv1 id v2
  rw [hrun]
  refine ⟨hfwd, ?_, ?_⟩
  · rw [rangeQuery_correct _ hInv2 v1 v1 id]
    rintro ⟨v, hv, ha, hb2⟩
    rw [hfwd] at hv
    have hveq := Option.some.inj hv
    omega
  · rw [rangeQuery_correct _ hInv2 v2 v2 id]
    exact ⟨v2, hfwd, le_refl _, le_refl _⟩

theorem c2_witness :
    (run [Op.put 1 5]).buckets.countP (fun b => decide (1 ∈ b.ids)) = 1 ∧
    ∀ b ∈ (run [Op.put 1 5]).buckets, 1 ∈ b.ids →
      b.base_value ≤ 5 ∧
      ∀ i, i < b.ids.length → b.ids.getD i 0 = 1 →
        b.deltas.getD i 0 = 5 - b.base_value :=
  c2_forward_inverted_consistency [Op.put 1 5] 1 5 (by decide)

theorem c9_witness :
    (run ([] ++ [Op.put 1 10, Op.put 1 20])).forward 1 = some 20 ∧
    1 ∉ rangeQuery (run ([] ++ [Op.put 1 10, Op.put 1 20])) 10 10 ∧
    1 ∈ rangeQuery (run ([] ++ [Op.put 1 10, Op.put 1 20])) 20 20 :=
  c9_point_update [] 1 10 20 (by decide)

/-- C3: a saturated-bucket insert with a value-boundary cut at k = splitMid
produces right with base = left.base + deltas[k] holding the former entries
k.. with deltas re-expressed against the new base, truncates left to its
first k entries with its bitmap rebuilt, places the new (v, id) into left
iff v < right.base, and leaves both buckets delta-sorted with every left
value strictly below right.base. -/
theorem c3_split_boundary (fwd : Nat → Option Nat) (bs : List Bucket) (value id : Nat)
    (b : Bucket)
    (hwf : ∀ c ∈ bs, BucketWF c)
    (hsorted : bs.Pairwise (fun a c => a.base_value < c.base_value))
    (hsep : bs.Pairwise (fun a c => ∀ w ∈ bucketValues a, w < c.base_value))
    (hfwdE : ∀ c ∈ bs, ∀ e ∈ entriesOf c, e.2 ≠ id ∧ fwd e.2 = some (c.base_value + e.1))
    (hfid : fwd id = some value)
    (hlast : (bs.takeWhile (fun x => x.base_value ≤ value)).getLast? = some b)
    (hdle : value - b.base_value ≤ MAX_DELTA)
    (hfull : MAX_SIZE ≤ b.ids.length)
    (hmidne : splitMid b ≠ b.deltas.length) :
    ∃ left2 right2,
      add_to_buckets bs value id = .ok
        ((bs.takeWhile (fun x => x.base_value ≤ value)).dropLast ++ left2 :: right2 ::
          bs.dropWhile (fun x => x.base_value ≤ value)) ∧
      left2.base_value = b.base_value ∧
      right2.base_value = b.base_value + b.deltas.getD (splitMid b) 0 ∧
      List.Chain' (· ≤ ·) left2.deltas ∧
      List.Chain' (· ≤ ·) right2.deltas ∧
      left2.summary_bitmap = left2.ids.toFinset ∧
      right2.summary_bitmap = right2.ids.toFinset ∧
      (∀ w ∈ bucketValues left2, w < right2.base_value) ∧
      (if value < b.base_value + b.deltas.getD (splitMid b) 0 then
        (entriesOf left2).Perm ((value - b.base_value, id) ::
          (b.deltas.take (splitMid b)).zip (b.ids.take (splitMid b))) ∧
        (entriesOf right2).Perm (((b.deltas.drop (splitMid b)).zip
          (b.ids.drop (splitMid b))).map
            (fun p => (p.1 - b.deltas.getD (splitMid b) 0, p.2)))
      else
        entriesOf left2 = (b.deltas.take (splitMid b)).zip (b.ids.take (splitMid b)) ∧
        (entriesOf right2).Perm
          ((value - (b.base_value + b.deltas.getD (splitMid b) 0), id) ::
            ((b.deltas.drop (splitMid b)).zip (b.ids.drop (splitMid b))).map
              (fun p => (p.1 - b.deltas.getD (splitMid b) 0, p.2)))) := by
  obtain ⟨l2, r2, h1, h2, h3, h4, h5, h6, h7, h8, h9, -, -, -, -, -⟩ :=
    split_case_spec fwd bs value id b hwf hsorted hsep hfwdE hfid hlast hdle hfull hmidne
  exact ⟨l2, r2, h1, h2, h3, h4, h5, h6, h7, h8, h9⟩

theorem probeRightAux_stop_now (ds : List Nat) (fuel i : Nat)
    (h : ¬ (i < ds.length ∧ 0 < i ∧ ds.getD i 0 = ds.getD (i - 1) 0)) :
    probeRightAux ds fuel i = i := by
  cases fuel with
  | zero => rfl
  | succ f =>
      unfold probeRightAux
      rw [if_neg h]

theorem chain'_le_replicate (n a : Nat) : List.Chain' (· ≤ ·) (List.replicate n a) := by
  induction n with
  | zero => simp
  | succ m ih =>
      cases m with
      | zero => simp
      | succ k =>
          rw [List.replicate_succ, List.replicate_succ, List.chain'_cons]
          refine ⟨le_refl a, ?_⟩
          rw [← List.replicate_succ]
          exact ih

theorem c3w_len_d : c3wDeltas.length = 1024 := by
  unfold c3wDeltas
  rw [List.length_append, List.length_replicate, List.length_replicate]

theorem c3w_len_i : c3wIds.length = 1024 := by
  unfold c3wIds
  rw [List.length_range]

theorem c3w_getD_lo (i : Nat) (h : i < 512) : c3wDeltas.getD i 0 = 0 := by
  have hlt : i < c3wDeltas.length := by rw [c3w_len_d]; omega
  rw [List.getD_eq_getElem _ _ hlt]
  unfold c3wDeltas
  rw [List.getElem_append_left (by rw [List.length_replicate]; omega)]
  exact List.getElem_replicate _ _

theorem c3w_getD_hi (i : Nat) (h1 : 512 ≤ i) (h2 : i < 1024) :
    c3wDeltas.getD i 0 = 5 := by
  have hlt : i < c3wDeltas.length := by rw [c3w_len_d]; omega
  rw [List.getD_eq_getElem _ _ hlt]
  unfold c3wDeltas
  rw [List.getElem_append_right (by rw [List.length_replicate]; omega)]
  exact List.getElem_replicate _ _

set_option maxRecDepth 8192 in
theorem c3w_splitMid : splitMid c3wB = 512 := by
  have hids : c3wB.ids.length = 1024 := c3w_len_i
  have hds : c3wB.deltas.length = 1024 := c3w_len_d
  have hpr : probeRight c3wB.deltas 512 = 512 := by
    unfold probeRight
    refine probeRightAux_stop_now _ _ _ ?_
    rintro ⟨-, -, hcond⟩
    have h5 : c3wB.deltas.getD 512 0 = 5 := c3w_getD_hi 512 (by omega) (by omega)
    have h0 : c3wB.deltas.getD (512 - 1) 0 = 0 := c3w_getD_lo 511 (by omega)
    rw [h5, h0] at hcond
    omega
  unfold splitMid
  simp only []
  rw [hids]
  rw [show (1024 : Nat) / 2 = 512 from rfl]
  rw [hpr, hds]
  rw [if_pos (by omega)]

set_option maxRecDepth 8192 in
theorem c3w_wf : ∀ c ∈ [c3wB], BucketWF c := by
  intro c hc
  rw [List.mem_singleton] at hc
  subst hc
  refine ⟨?_, ?_, ?_, rfl, ?_⟩
  · show List.Chain' (· ≤ ·) c3wDeltas
    unfold c3wDeltas
    rw [List.chain'_append]
    refine ⟨chain'_le_replicate _ _, chain'_le_replicate _ _, ?_⟩
    intro x hx y hy
    have hx2 := List.eq_of_mem_replicate (List.mem_of_mem_getLast? hx)
    have hy2 := List.eq_of_mem_replicate (List.mem_of_mem_head? hy)
    omega
  · show c3wDeltas.length = c3wIds.length
    rw [c3w_len_d, c3w_len_i]
  · intro d hd
    have hd2 : d ∈ c3wDeltas := hd
    unfold c3wDeltas at hd2
    rcases List.mem_append.mp hd2 with h | h <;>
      · rw [List.eq_of_mem_replicate h]
        decide
  · show c3wIds ≠ []
    apply List.ne_nil_of_length_pos
    rw [c3w_len_i]
    omega

set_option maxRecDepth 8192 in
theorem c3w_fwdE : ∀ c ∈ [c3wB], ∀ e ∈ entriesOf c,
    e.2 ≠ 2000 ∧ c3wFwd e.2 = some (c.base_value + e.1) := by
  intro c hc e he
  rw [List.mem_singleton] at hc
  subst hc
  obtain ⟨i, hi, hget⟩ := List.mem_iff_getElem.mp he
  have hzl : (entriesOf c3wB).length = 1024 := by
    show (c3wDeltas.zip c3wIds).length = 1024
    rw [List.length_zip, c3w_len_d, c3w_len_i]
    rfl
  have hi2 : i < 1024 := by
    rw [hzl] at hi
    exact hi
  have hdl : i < c3wDeltas.length := by rw [c3w_len_d]; omega
  have hil : i < c3wIds.length := by rw [c3w_len_i]; omega
  have hgete : e = (c3wDeltas.getD i 0, i) := by
    rw [← hget]
    have hzil : i < (c3wDeltas.zip c3wIds).length := by
      rw [List.length_zip, c3w_len_d, c3w_len_i]
      show i < 1024
      omega
    show (c3wDeltas.zip c3wIds)[i] = (c3wDeltas.getD i 0, i)
    rw [List.getElem_zip]
    simp only [Prod.mk.injEq]
    constructor
    · rw [List.getD_eq_getElem _ _ hdl]
    · show c3wIds[i] = i
      unfold c3wIds
      exact List.getElem_range _ _
  subst hgete
  show i ≠ 2000 ∧ c3wFwd i = some (c3wB.base_value + c3wDeltas.getD i 0)
  refine ⟨by omega, ?_⟩
  unfold c3wFwd
  rcases Nat.lt_or_ge i 512 with hcase | hcase
  · rw [if_neg (by omega), if_pos (by omega), c3w_getD_lo i hcase]
    rfl
  · rw [if_neg (by omega), if_neg (by omega), if_pos (by omega),
      c3w_getD_hi i hcase hi2]
    rfl

set_option maxRecDepth 8192 in
theorem c3_witness :
    ∃ left2 right2,
      add_to_buckets [c3wB] 103 2000 = .ok
        (([c3wB].takeWhile (fun x => x.base_value ≤ 103)).dropLast ++ left2 :: right2 ::
          [c3wB].dropWhile (fun x => x.base_value ≤ 103)) ∧
      left2.base_value = c3wB.base_value ∧
      right2.base_value = c3wB.base_value + c3wB.deltas.getD (splitMid c3wB) 0 ∧
      List.Chain' (· ≤ ·) left2.deltas ∧
      List.Chain' (· ≤ ·) right2.deltas ∧
      left2.summary_bitmap = left2.ids.toFinset ∧
      right2.summary_bitmap = right2.ids.toFinset ∧
      (∀ w ∈ bucketValues left2, w < right2.base_value) ∧
      (if 103 < c3wB.base_value + c3wB.deltas.getD (splitMid c3wB) 0 then
        (entriesOf left2).Perm ((103 - c3wB.base_value, 2000) ::
          (c3wB.deltas.take (splitMid c3wB)).zip (c3wB.ids.take (splitMid c3wB))) ∧
        (entriesOf right2).Perm (((c3wB.deltas.drop (splitMid c3wB)).zip
          (c3wB.ids.drop (splitMid c3wB))).map
            (fun p => (p.1 - c3wB.deltas.getD (splitMid c3wB) 0, p.2)))
      else
        entriesOf left2 =
          (c3wB.deltas.take (splitMid c3wB)).zip (c3wB.ids.take (splitMid c3wB)) ∧
        (entriesOf right2).Perm
          ((103 - (c3wB.base_value + c3wB.deltas.getD (splitMid c3wB) 0), 2000) ::
            ((c3wB.deltas.drop (splitMid c3wB)).zip (c3wB.ids.drop (splitMid c3wB))).map
              (fun p => (p.1 - c3wB.deltas.getD (splitMid c3wB) 0, p.2)))) :=
  c3_split_boundary c3wFwd [c3wB] 103 2000 c3wB
    c3w_wf
    (by simp)
    (by simp)
    c3w_fwdE
    rfl
    rfl
    (by rw [show c3wB.base_value = 100 from rfl]; decide)
    (by rw [show c3wB.ids.length = 1024 from c3w_len_i]; decide)
    (by rw [c3w_splitMid, show c3wB.deltas.length = 1024 from c3w_len_d]; omega)

theorem lowerBound_replicate_zero (n : Nat) :
    lowerBound (List.replicate n 0) 0 = 0 := by
  unfold lowerBound
  cases n with
  | zero => rfl
  | succ m =>
      rw [List.replicate_succ, List.takeWhile_cons]
      simp

theorem add_to_buckets_const (c a n : Nat) (R : List Nat) (F : Finset Nat)
    (hn : R.length = n) :
    add_to_buckets [⟨c, List.replicate n 0, R, F⟩] c a =
      .ok [⟨c, List.replicate (n + 1) 0, a :: R, insert a F⟩] := by
  have hadd : Bucket.add ⟨c, List.replicate n 0, R, F⟩ c a =
      .ok ⟨c, List.replicate (n + 1) 0, a :: R, insert a F⟩ := by
    rw [add_eq_ok _ _ _ (le_refl c)
      (by show c - c ≤ MAX_DELTA; rw [Nat.sub_self]; unfold MAX_DELTA; omega)]
    dsimp only
    rw [Nat.sub_self, lowerBound_replicate_zero]
    rw [List.insertIdx_zero, List.insertIdx_zero, ← List.replicate_succ]
  unfold add_to_buckets
  simp only []
  have htw : List.takeWhile (fun b => b.base_value ≤ c)
      [(⟨c, List.replicate n 0, R, F⟩ : Bucket)] =
      [⟨c, List.replicate n 0, R, F⟩] := by
    rw [List.takeWhile_cons]
    simp
  have hdw : List.dropWhile (fun b => b.base_value ≤ c)
      [(⟨c, List.replicate n 0, R, F⟩ : Bucket)] = [] := by
    rw [List.dropWhile_cons]
    simp
  rw [htw, hdw, List.getLast?_singleton]
  dsimp only
  rw [if_pos (show c - (⟨c, List.replicate n 0, R, F⟩ : Bucket).base_value ≤ MAX_DELTA by
    dsimp only
    rw [Nat.sub_self]
    unfold MAX_DELTA
    omega)]
  by_cases hfull : MAX_SIZE ≤ ((⟨c, List.replicate n 0, R, F⟩ : Bucket)).ids.length
  · rw [if_pos hfull]
    have hmid : splitMid ⟨c, List.replicate n 0, R, F⟩ =
        ((⟨c, List.replicate n 0, R, F⟩ : Bucket)).deltas.length :=
      splitMid_all_eq _ 0 (fun d hd => List.eq_of_mem_replicate hd)
        (by dsimp only; rw [List.length_replicate, hn]) hfull
    rw [if_pos hmid, hadd]
    rfl
  · rw [if_neg hfull, hadd]
    rfl

theorem run_puts_const (c : Nat) (L : List Nat) :
    L ≠ [] → L.Nodup →
    ((run (L.map (fun i => Op.put i c))).buckets =
      [⟨c, List.replicate L.length 0, L.reverse, L.toFinset⟩] ∧
    ∀ x, (run (L.map (fun i => Op.put i c))).forward x =
      if x ∈ L then some c else none) := by
  induction L using List.reverseRecOn with
  | nil =>
      intro hne _
      cases hne rfl
  | append_singleton M a ih =>
      intro _ hnd
      obtain ⟨hndM, -, hdisj⟩ := List.nodup_append.mp hnd
      have hna : a ∉ M := fun hmem => hdisj hmem (by simp)
      have hrunstep : run ((M ++ [a]).map (fun i => Op.put i c)) =
          put (run (M.map (fun i => Op.put i c))) a c := by
        rw [List.map_append]
        unfold run
        rw [List.foldl_append]
        rfl
      rcases eq_or_ne M [] with hM | hM
      · subst hM
        have hpi : put_internal emptyState a c = .ok
            ⟨fun x => if x = a then some c else emptyState.forward x,
             [⟨c, [0], [a], insert a ∅⟩]⟩ := by
          have h1 : put_internal emptyState a c =
              (add_to_buckets [] c a).map
                (fun bs2 => ⟨fun x => if x = a then some c else emptyState.forward x,
                  bs2⟩) := rfl
          have h2 : add_to_buckets [] c a =
              ((Bucket.mk c [] [] ∅).add c a).map (fun nb => putBucket nb []) := rfl
          rw [h1, h2, add_empty]
          rfl
        have hrun0 : run (List.map (fun i => Op.put i c) ([] : List Nat)) =
            emptyState := rfl
        have hrun1 : run (([] ++ [a]).map (fun i => Op.put i c)) =
            (⟨fun x => if x = a then some c else emptyState.forward x,
              [⟨c, [0], [a], insert a ∅⟩]⟩ : IndexState) := by
          rw [hrunstep, hrun0]
          unfold put
          rw [hpi]
        constructor
        · rw [hrun1]
          rfl
        · intro x
          rw [hrun1]
          show (if x = a then some c else emptyState.forward x) = _
          by_cases hx : x = a
          · simp [hx]
          · simp [hx, emptyState]
      · obtain ⟨hbk, hfwd⟩ := ih hM hndM
        have hfa : (run (M.map (fun i => Op.put i c))).forward a = none := by
          rw [hfwd a, if_neg hna]
        have hpi : put_internal (run (M.map (fun i => Op.put i c))) a c =
            (add_to_buckets (run (M.map (fun i => Op.put i c))).buckets c a).map
              (fun bs2 => ⟨fun x => if x = a then some c else
                (run (M.map (fun i => Op.put i c))).forward x, bs2⟩) := by
          unfold put_internal
          rw [hfa]
        have hadd := add_to_buckets_const c a M.length M.reverse M.toFinset
          (by rw [List.length_reverse])
        have hok : put_internal (run (M.map (fun i => Op.put i c))) a c = .ok
            ⟨fun x => if x = a then some c else
              (run (M.map (fun i => Op.put i c))).forward x,
             [⟨c, List.replicate (M.length + 1) 0, a :: M.reverse,
               insert a M.toFinset⟩]⟩ := by
          rw [hpi, hbk, hadd]
          rfl
        have hput : run ((M ++ [a]).map (fun i => Op.put i c)) =
            ⟨fun x => if x = a then some c else
              (run (M.map (fun i => Op.put i c))).forward x,
             [⟨c, List.replicate (M.length + 1) 0, a :: M.reverse,
               insert a M.toFinset⟩]⟩ := by
          rw [hrunstep]
          unfold put
          rw [hok]
        have e1 : (M ++ [a]).length = M.length + 1 := by
          rw [List.length_append]
          rfl
        have e2 : (M ++ [a]).reverse = a :: M.reverse := by
          rw [List.reverse_append]
          rfl
        have e3 : (M ++ [a]).toFinset = insert a M.toFinset := by
          ext y
          simp [or_comm]
        constructor
        · rw [hput, e1, e2, e3]
        · intro x
          rw [hput]
          show (if x = a then some c else
            (run (M.map (fun i => Op.put i c))).forward x) = _
          rw [hfwd x]
          by_cases hx : x = a
          · subst hx
            rw [if_pos rfl, if_pos (by simp)]
          · rw [if_neg hx]
            by_cases hxm : x ∈ M
            · rw [if_pos hxm, if_pos (by simp [hxm])]
            · rw [if_neg hxm, if_neg (by simp [hx, hxm])]

/-- C4: inserting any number of entries that all share one value keeps a
single bucket — a saturated all-equal bucket is not split but grows
oversized — and the equality range query returns every inserted id. -/
theorem c4_all_equal_oversized (c : Nat) (L : List Nat) (hne : L ≠ [])
    (hnd : L.Nodup) :
    ∃ b, (run (L.map (fun id => Op.put id c))).buckets = [b] ∧
      b.deltas = List.replicate L.length 0 ∧
      b.ids = L.reverse ∧
      rangeQuery (run (L.map (fun id => Op.put id c))) c c = L.toFinset := by
  obtain ⟨hbk, hfwd⟩ := run_puts_const c L hne hnd
  refine ⟨_, hbk, rfl, rfl, ?_⟩
  have hInv := run_inv (L.map (fun id => Op.put id c))
  ext x
  rw [rangeQuery_correct _ hInv c c x]
  simp only [List.mem_toFinset]
  constructor
  · rintro ⟨v, hv, h1, h2⟩
    rw [hfwd x] at hv
    by_cases hx : x ∈ L
    · exact hx
    · rw [if_neg hx] at hv
      cases hv
  · intro hx
    exact ⟨c, by rw [hfwd x, if_pos hx], le_refl c, le_refl c⟩

theorem c4_witness :
    ∃ b, (run ([10, 20, 30].map (fun id => Op.put id 42))).buckets = [b] ∧
      b.deltas = List.replicate [10, 20, 30].length 0 ∧
      b.ids = [10, 20, 30].reverse ∧
      rangeQuery (run ([10, 20, 30].map (fun id => Op.put id 42))) 42 42 =
        [10, 20, 30].toFinset :=
  c4_all_equal_oversized 42 [10, 20, 30] (by decide) (by decide)

end NumericSpec
